import Mathlib

/-!
Verification of a tree-based maze-search program.

The program searches a 2-D grid maze with axis-aligned rectangular walls
for a path from a start coordinate to one or more goal coordinates, using
one of six strategies (DFS, BFS, GBFS, A*, depth-limited DFS, bidirectional
A*).  This file embeds the agent module (coordinate probing and node
construction) and the search module (the six strategies, the single-goal
driver and the multi-goal orchestrator) as executable Lean definitions, and
proves properties of them.

Modelling conventions:
* JavaScript numbers that hold coordinates, wall extents, maze dimensions
  and costs are modelled as `Int` (all arithmetic in the program stays
  integral); list lengths are `Nat`.
* The unbounded `while` loops of the strategies become fueled recursions
  returning `Option Solution`; `none` means the fuel ran out (the concrete
  program would still be looping).  Each strategy is invoked with a fuel
  that is proved sufficient (`defaultFuel`).
* A JavaScript crash (calling an undefined algorithm, reading a field of
  `undefined` from a failed `find`) is modelled as `none`.
* `lodash` helpers are modelled by their documented semantics: `_.inRange`
  swaps its bounds when given in reverse order, `_.get(x, f, d)` returns
  the default on a missing element, `_.tail` drops the first element, and
  `Array.prototype.sort` is a stable sort (`stableSort`).
-/

/-- A grid coordinate `{x, y}`. -/
structure Coord where
  x : Int
  y : Int
deriving DecidableEq, Repr

/-- Maze dimensions `{rows, columns}`; cells satisfy `0 ≤ x < columns`, `0 ≤ y < rows`. -/
structure MazeSize where
  rows : Int
  columns : Int
deriving DecidableEq, Repr

/-- A wall rectangle anchored at `(x, y)` spanning `columns` cells horizontally
and `rows` cells vertically. -/
structure Wall where
  x : Int
  y : Int
  columns : Int
  rows : Int
deriving DecidableEq, Repr

/-- A search problem: maze size, agent start, goal list, wall list. -/
structure Problem where
  mazeSize : MazeSize
  agentLocation : Coord
  goals : List Coord
  walls : List Wall
deriving Repr

/-- The `distanceToGoal` record attached to every search node. -/
structure HeuristicCost where
  fromCurrentNode : Int
  fromStartingNode : Int
  nodesTravelled : Nat
deriving DecidableEq, Repr

/-- A search node.  `previousCoordinates` carries the full ancestor chain by
value, exactly as the source duplicates the path prefix into every node. -/
inductive Node : Type where
  | mk (direction : String) (coordinates : Coord) (isGoal : Bool)
      (previousCoordinates : List Node) (distanceToGoal : HeuristicCost)
      (depth : Int) : Node

/-- Direction label of a node. -/
def Node.direction : Node → String
  | .mk d _ _ _ _ _ => d

/-- Coordinate of a node. -/
def Node.coordinates : Node → Coord
  | .mk _ c _ _ _ _ => c

/-- Goal flag of a node. -/
def Node.isGoal : Node → Bool
  | .mk _ _ g _ _ _ => g

/-- Ancestor chain of a node (exclusive of the node itself). -/
def Node.previousCoordinates : Node → List Node
  | .mk _ _ _ p _ _ => p

/-- Heuristic cost record of a node. -/
def Node.distanceToGoal : Node → HeuristicCost
  | .mk _ _ _ _ h _ => h

/-- Depth of a node (root depth 0). -/
def Node.depth : Node → Int
  | .mk _ _ _ _ _ d => d

/-- lodash `_.inRange(n, start, end)`: checks `min start end ≤ n < max start end`. -/
def inRange (n start stop : Int) : Bool :=
  decide (min start stop ≤ n) && decide (n < max start stop)

/-- `checkGoal`: true if the coordinate is the goal. -/
def checkGoal (searchLocation goal : Coord) : Bool :=
  goal.x == searchLocation.x && goal.y == searchLocation.y

/-- `checkWall`: true if the coordinate is within some wall rectangle. -/
def checkWall (searchLocation : Coord) (walls : List Wall) : Bool :=
  walls.any fun w =>
    inRange searchLocation.x w.x (w.x + w.columns) &&
    inRange searchLocation.y w.y (w.y + w.rows)

/-- `checkOutOfBounds`: true if the location is outside the maze. -/
def checkOutOfBounds (searchLocation : Coord) (mazeSize : MazeSize) : Bool :=
  decide (searchLocation.x < 0) || decide (mazeSize.columns ≤ searchLocation.x) ||
  decide (searchLocation.y < 0) || decide (mazeSize.rows ≤ searchLocation.y)

/-- `checkBacktrack`: true if some node of `searchTree` already has this coordinate. -/
def checkBacktrack (searchLocation : Coord) (searchTree : List Node) : Bool :=
  searchTree.any fun p =>
    p.coordinates.x == searchLocation.x && p.coordinates.y == searchLocation.y

/-- Manhattan distance between two coordinates, `|dy| + |dx|`. -/
def manhattanDistance (searchLocation goal : Coord) : Int :=
  ((goal.y - searchLocation.y).natAbs : Int) + ((goal.x - searchLocation.x).natAbs : Int)

/-- `calculateManhattan`: heuristic-cost record for a location reached through
ancestor chain `previousCoordinates`, aiming at `goal`. -/
def calculateManhattan (searchLocation : Coord) (previousCoordinates : List Node)
    (goal : Coord) : HeuristicCost :=
  let nodesTravelled := previousCoordinates.length
  let distance := manhattanDistance searchLocation goal
  let currentDistance :=
    match previousCoordinates.getLast? with
    | some p => p.distanceToGoal.fromStartingNode
    | none => 0
  { fromCurrentNode := distance
    fromStartingNode := currentDistance + distance
    nodesTravelled := nodesTravelled }

/-- Depth recorded on the last element of a path, defaulting to 0
(`_.get(path[path.length - 1], "depth", 0)`). -/
def lastDepth (path : List Node) : Int :=
  match path.getLast? with
  | some p => p.depth
  | none => 0

/-- `probeCoordinates`: builds the four compass candidates (up, left, down,
right) around `currentLocation` and keeps those that are not in a wall, not
out of bounds and not already present in `searchTree`. -/
def probeCoordinates (currentLocation : Coord) (path : List Node)
    (mazeSize : MazeSize) (goal : Coord) (walls : List Wall)
    (searchTree : List Node) : List Node :=
  let searchLocation : List (String × Coord) :=
    [("up; ", ⟨currentLocation.x, currentLocation.y - 1⟩),
     ("left; ", ⟨currentLocation.x - 1, currentLocation.y⟩),
     ("down; ", ⟨currentLocation.x, currentLocation.y + 1⟩),
     ("right; ", ⟨currentLocation.x + 1, currentLocation.y⟩)]
  let searchSpace : List Node := searchLocation.map fun dc =>
    Node.mk dc.1 dc.2 (checkGoal dc.2 goal) path (calculateManhattan dc.2 path goal)
      (lastDepth path + 1)
  searchSpace.filter fun n =>
    !(checkWall n.coordinates walls || checkOutOfBounds n.coordinates mazeSize ||
      checkBacktrack n.coordinates searchTree)

/-- `getInitialNode`: the root search node (note: `isGoal` is hardcoded `false`). -/
def getInitialNode (agentLocation goal : Coord) : Node :=
  Node.mk "start; " agentLocation false [] (calculateManhattan agentLocation [] goal) 0

/-- Outcome of a search: `found` or `fail`. -/
inductive Status : Type where
  | found : Status
  | fail : Status
deriving DecidableEq, Repr

/-- An entry of a returned `path`.  The five single-tree strategies return the
search nodes themselves; the bidirectional strategy rebuilds the path as
records holding only a direction label. -/
inductive PathElem : Type where
  | node (n : Node) : PathElem
  | dir (direction : String) : PathElem

/-- A solution record `{status, path, searchTree}`. -/
structure Solution where
  status : Status
  path : List PathElem
  searchTree : List Node

/-- JavaScript `Array.prototype.pop`: removes and returns the last element. -/
def popLast {α : Type _} : List α → Option (α × List α)
  | [] => none
  | a :: rest =>
    match popLast rest with
    | none => some (a, [])
    | some (x, r) => some (x, a :: r)

/-- Inserts `a` after every leading element `b` with `le b a` — the stable
insertion step. -/
def stableInsert {α : Type _} (le : α → α → Bool) (a : α) : List α → List α
  | [] => [a]
  | b :: bs => if le b a then b :: stableInsert le a bs else a :: b :: bs

/-- JavaScript `Array.prototype.sort` with a consistent comparator is a stable
sort, and a stable ascending sort is uniquely determined by the comparator
and the input order; it is modelled here as stable insertion sort (kept
structurally recursive so that concrete runs compute). -/
def stableSort {α : Type _} (le : α → α → Bool) (l : List α) : List α :=
  l.foldl (fun acc x => stableInsert le x acc) []

/-- Fuel bound handed to every strategy: one more than the largest possible
search tree (`rows*columns` in-bounds coordinates plus one root). -/
def defaultFuel (problem : Problem) : Nat :=
  problem.mazeSize.rows.toNat * problem.mazeSize.columns.toNat + 2

/-- Loop of `dfs`: pops the last frontier entry, pushes candidates in reverse
compass order onto frontier and search tree. -/
def dfsLoop (mazeSize : MazeSize) (walls : List Wall) (goal : Coord) :
    Nat → List Node → List Node → Option Solution
  | fuel, frontier, searchTree =>
    match popLast frontier with
    | none => some ⟨.fail, [], searchTree⟩
    | some (searchLocation, frontier') =>
      match fuel with
      | 0 => none
      | fuel + 1 =>
        let path := searchLocation.previousCoordinates ++ [searchLocation]
        if searchLocation.isGoal then
          some ⟨.found, path.tail.map .node, searchTree⟩
        else
          let candidates := (probeCoordinates searchLocation.coordinates path
            mazeSize goal walls searchTree).reverse
          dfsLoop mazeSize walls goal fuel (frontier' ++ candidates)
            (searchTree ++ candidates)

/-- `dfs`: depth-first search. -/
def dfs (problem : Problem) (goal : Coord) (initialSearchCoordinate : Node) :
    Option Solution :=
  dfsLoop problem.mazeSize problem.walls goal (defaultFuel problem)
    [initialSearchCoordinate] [initialSearchCoordinate]

/-- Loop of `bfs`: reads the first frontier entry, appends candidates, then
shifts the frontier. -/
def bfsLoop (mazeSize : MazeSize) (walls : List Wall) (goal : Coord) :
    Nat → List Node → List Node → Option Solution
  | fuel, frontier, searchTree =>
    match frontier with
    | [] => some ⟨.fail, [], searchTree⟩
    | searchLocation :: rest =>
      match fuel with
      | 0 => none
      | fuel + 1 =>
        let path := searchLocation.previousCoordinates ++ [searchLocation]
        if searchLocation.isGoal then
          some ⟨.found, path.tail.map .node, searchTree⟩
        else
          let candidates := probeCoordinates searchLocation.coordinates path
            mazeSize goal walls searchTree
          bfsLoop mazeSize walls goal fuel (rest ++ candidates)
            (searchTree ++ candidates)

/-- `bfs`: breadth-first search. -/
def bfs (problem : Problem) (goal : Coord) (initialSearchCoordinate : Node) :
    Option Solution :=
  bfsLoop problem.mazeSize problem.walls goal (defaultFuel problem)
    [initialSearchCoordinate] [initialSearchCoordinate]

/-- Loop of `gbfs`: shifts the frontier head, appends candidates, re-sorts the
frontier ascending by `fromCurrentNode` (stable sort). -/
def gbfsLoop (mazeSize : MazeSize) (walls : List Wall) (goal : Coord) :
    Nat → List Node → List Node → Option Solution
  | fuel, frontier, searchTree =>
    match frontier with
    | [] => some ⟨.fail, [], searchTree⟩
    | searchLocation :: rest =>
      match fuel with
      | 0 => none
      | fuel + 1 =>
        let path := searchLocation.previousCoordinates ++ [searchLocation]
        if searchLocation.isGoal then
          some ⟨.found, path.tail.map .node, searchTree⟩
        else
          let candidates := probeCoordinates searchLocation.coordinates path
            mazeSize goal walls searchTree
          gbfsLoop mazeSize walls goal fuel
            (stableSort (fun a b =>
                decide (a.distanceToGoal.fromCurrentNode ≤ b.distanceToGoal.fromCurrentNode))
              (rest ++ candidates))
            (searchTree ++ candidates)

/-- `gbfs`: greedy best-first search. -/
def gbfs (problem : Problem) (goal : Coord) (initialSearchCoordinate : Node) :
    Option Solution :=
  gbfsLoop problem.mazeSize problem.walls goal (defaultFuel problem)
    [initialSearchCoordinate] [initialSearchCoordinate]

/-- Loop of `aStar`: like `gbfs` but sorts ascending by `fromStartingNode`. -/
def aStarLoop (mazeSize : MazeSize) (walls : List Wall) (goal : Coord) :
    Nat → List Node → List Node → Option Solution
  | fuel, frontier, searchTree =>
    match frontier with
    | [] => some ⟨.fail, [], searchTree⟩
    | searchLocation :: rest =>
      match fuel with
      | 0 => none
      | fuel + 1 =>
        let path := searchLocation.previousCoordinates ++ [searchLocation]
        if searchLocation.isGoal then
          some ⟨.found, path.tail.map .node, searchTree⟩
        else
          let candidates := probeCoordinates searchLocation.coordinates path
            mazeSize goal walls searchTree
          aStarLoop mazeSize walls goal fuel
            (stableSort (fun a b =>
                decide (a.distanceToGoal.fromStartingNode ≤ b.distanceToGoal.fromStartingNode))
              (rest ++ candidates))
            (searchTree ++ candidates)

/-- `aStar`: A* search over the cumulative heuristic sum `fromStartingNode`. -/
def aStar (problem : Problem) (goal : Coord) (initialSearchCoordinate : Node) :
    Option Solution :=
  aStarLoop problem.mazeSize problem.walls goal (defaultFuel problem)
    [initialSearchCoordinate] [initialSearchCoordinate]

/-- The depth limit of `customOne` (`const depthLimit = 10`). -/
def depthLimit : Int := 10

/-- Loop of `customOne` (depth-limited DFS): like `dfsLoop`, but candidates are
pushed onto the frontier only when the first candidate's depth differs from
`depthLimit + 1`; they are always recorded in the search tree. -/
def customOneLoop (mazeSize : MazeSize) (walls : List Wall) (goal : Coord) :
    Nat → List Node → List Node → Option Solution
  | fuel, frontier, searchTree =>
    match popLast frontier with
    | none => some ⟨.fail, [], searchTree⟩
    | some (searchLocation, frontier') =>
      match fuel with
      | 0 => none
      | fuel + 1 =>
        let path := searchLocation.previousCoordinates ++ [searchLocation]
        if searchLocation.isGoal then
          some ⟨.found, path.tail.map .node, searchTree⟩
        else
          let candidates := (probeCoordinates searchLocation.coordinates path
            mazeSize goal walls searchTree).reverse
          let firstDepth : Int :=
            match candidates with
            | [] => 0
            | c :: _ => c.depth
          customOneLoop mazeSize walls goal fuel
            (if firstDepth ≠ depthLimit + 1 then frontier' ++ candidates else frontier')
            (searchTree ++ candidates)

/-- `customOne`: depth-limited DFS. -/
def customOne (problem : Problem) (goal : Coord) (initialSearchCoordinate : Node) :
    Option Solution :=
  customOneLoop problem.mazeSize problem.walls goal (defaultFuel problem)
    [initialSearchCoordinate] [initialSearchCoordinate]

/-- Direction label between a predecessor coordinate and a current coordinate,
as recomputed by the bidirectional path stitcher. -/
def dirBetween (previousCoordinate p : Coord) : String :=
  if previousCoordinate.y > p.y then "up; "
  else if previousCoordinate.x > p.x then "left; "
  else if previousCoordinate.y < p.y then "down; "
  else if previousCoordinate.x < p.x then "right; "
  else "broken; "

/-- The bidirectional stitcher's map over the joined path: index 0 becomes
`"start; "`, every later entry is labelled against its predecessor; entries
carry only the direction. -/
def stitchDirections (joinedPath : List Node) : List PathElem :=
  match joinedPath with
  | [] => []
  | _ :: _ =>
    PathElem.dir "start; " ::
      (joinedPath.zip joinedPath.tail).map fun pc =>
        PathElem.dir (dirBetween pc.1.coordinates pc.2.coordinates)

/-- Loop of `customTwo` (bidirectional A*): pops one node from each frontier,
tests for a meeting coordinate against the other side's tree, and otherwise
expands both sides, each frontier re-sorted by `fromStartingNode`. -/
def customTwoLoop (mazeSize : MazeSize) (walls : List Wall) (goal agentLocation : Coord) :
    Nat → List Node → List Node → List Node → List Node → Option Solution
  | fuel, frontier, searchTree, reverseFrontier, reverseSearchTree =>
    match frontier, reverseFrontier with
    | searchLocation :: rest, reverseSearchLocation :: reverseRest =>
      match fuel with
      | 0 => none
      | fuel + 1 =>
        let path := searchLocation.previousCoordinates ++ [searchLocation]
        let reversePath := reverseSearchLocation.previousCoordinates ++ [reverseSearchLocation]
        let intersectingCoordinate : Option Node :=
          if reverseSearchTree.any fun rsl =>
              rsl.coordinates.x == searchLocation.coordinates.x &&
              rsl.coordinates.y == searchLocation.coordinates.y then
            some searchLocation
          else if searchTree.any fun sl =>
              sl.coordinates.x == reverseSearchLocation.coordinates.x &&
              sl.coordinates.y == reverseSearchLocation.coordinates.y then
            some reverseSearchLocation
          else
            none
        match intersectingCoordinate with
        | some ic =>
          match
            searchTree.find? fun node =>
              node.coordinates.x == ic.coordinates.x &&
              node.coordinates.y == ic.coordinates.y,
            reverseSearchTree.find? fun node =>
              node.coordinates.x == ic.coordinates.x &&
              node.coordinates.y == ic.coordinates.y with
          | some forwardNode, some reverseNode =>
            let joinedPath := forwardNode.previousCoordinates ++ [ic] ++
              reverseNode.previousCoordinates.reverse
            let finalPath := stitchDirections joinedPath
            some ⟨.found, finalPath.tail, searchTree ++ reverseSearchTree⟩
          | _, _ => none
        | none =>
          let candidates := probeCoordinates searchLocation.coordinates path
            mazeSize goal walls searchTree
          let reverseCandidates := probeCoordinates reverseSearchLocation.coordinates
            reversePath mazeSize agentLocation walls reverseSearchTree
          customTwoLoop mazeSize walls goal agentLocation fuel
            (stableSort (fun a b =>
                decide (a.distanceToGoal.fromStartingNode ≤ b.distanceToGoal.fromStartingNode))
              (rest ++ candidates))
            (searchTree ++ candidates)
            (stableSort (fun a b =>
                decide (a.distanceToGoal.fromStartingNode ≤ b.distanceToGoal.fromStartingNode))
              (reverseRest ++ reverseCandidates))
            (reverseSearchTree ++ reverseCandidates)
    | _, _ => some ⟨.fail, [], searchTree ++ reverseSearchTree⟩

/-- `customTwo`: bidirectional A*; the backward root is
`getInitialNode goal agentLocation`. -/
def customTwo (problem : Problem) (goal : Coord) (initialSearchCoordinate : Node) :
    Option Solution :=
  let reverseInitialSearchCoordinate := getInitialNode goal problem.agentLocation
  customTwoLoop problem.mazeSize problem.walls goal problem.agentLocation
    (defaultFuel problem)
    [initialSearchCoordinate] [initialSearchCoordinate]
    [reverseInitialSearchCoordinate] [reverseInitialSearchCoordinate]

/-- `selectAlgorithm`: name-to-strategy map; unknown names yield nothing. -/
def selectAlgorithm (method : String) :
    Option (Problem → Coord → Node → Option Solution) :=
  if method = "DFS" then some dfs
  else if method = "BFS" then some bfs
  else if method = "GBFS" then some gbfs
  else if method = "AS" then some aStar
  else if method = "CUS1" then some customOne
  else if method = "CUS2" then some customTwo
  else none

/-- `findSolution`: single-goal driver.  Calling an absent algorithm crashes in
the source; that is modelled as `none`. -/
def findSolution (problem : Problem) (startNode goal : Coord)
    (searchMethod : String) : Option Solution :=
  let initialSearchCoordinate := getInitialNode startNode goal
  match selectAlgorithm searchMethod with
  | some algorithm => algorithm problem goal initialSearchCoordinate
  | none => none

/-- The `goalList.map` of `searchAllGoals`: pairs every remaining goal with the
sub-solution found from `startNode`; any crashed sub-search makes the whole
call crash (`none`). -/
def solveGoals (problem : Problem) (searchMethod : String) (startNode : Coord) :
    List (Nat × Coord) → Option (List (Nat × Coord × Solution))
  | [] => some []
  | ig :: rest =>
    match findSolution problem startNode ig.2 searchMethod,
        solveGoals problem searchMethod startNode rest with
    | some s, some t => some ((ig.1, ig.2, s) :: t)
    | _, _ => none

/-- The `while` loop of `searchAllGoals`: solves every remaining goal from the
current start, stable-sorts the sub-solutions descending by path length, pops
the last (a shortest one), removes that goal and continues from it.  Goals are
carried with their original index so that removal matches the source's
removal by object identity.  Returns the legs in visiting order. -/
def legsLoop (problem : Problem) (searchMethod : String) :
    Nat → List (Nat × Coord) → Coord → Option (List (Coord × Solution))
  | _, [], _ => some []
  | 0, _ :: _, _ => none
  | fuel + 1, g :: gs, startNode =>
    match solveGoals problem searchMethod startNode (g :: gs) with
    | none => none
    | some solutions =>
      match popLast (stableSort (fun a b =>
          decide (b.2.2.path.length ≤ a.2.2.path.length)) solutions) with
      | none => none
      | some (chosen, _) =>
        match legsLoop problem searchMethod fuel
            ((g :: gs).filter fun ig => ig.1 != chosen.1) chosen.2.1 with
        | none => none
        | some legs => some ((chosen.2.1, chosen.2.2) :: legs)

/-- The final `reduce` of `searchAllGoals`: concatenates paths and trees and
unconditionally marks the status `found` once per leg. -/
def combineSolutions (legs : List (Coord × Solution)) : Solution :=
  legs.foldl
    (fun combinedSolution leg =>
      { status := .found
        path := combinedSolution.path ++ leg.2.path
        searchTree := combinedSolution.searchTree ++ leg.2.searchTree })
    ⟨.fail, [], []⟩

/-- `searchAllGoals`: multi-goal orchestrator. -/
def searchAllGoals (problem : Problem) (searchMethod : String) : Option Solution :=
  (legsLoop problem searchMethod problem.goals.length problem.goals.enum
    problem.agentLocation).map combineSolutions

/-- `searchMaze`: entry point; reading `goals[0]` of an empty goal list crashes
in the source, modelled as `none`. -/
def searchMaze (problem : Problem) (searchMethod : String) (allGoals : Bool) :
    Option Solution :=
  if allGoals then searchAllGoals problem searchMethod
  else
    match problem.goals with
    | goal :: _ => findSolution problem problem.agentLocation goal searchMethod
    | [] => none

/-- All in-bounds coordinates of a maze, row by row. -/
def gridCoords (mazeSize : MazeSize) : List Coord :=
  (List.range mazeSize.rows.toNat).flatMap fun r =>
    (List.range mazeSize.columns.toNat).map fun c => ⟨Int.ofNat c, Int.ofNat r⟩

/-- A 1x1 maze whose start coordinate is its only goal. -/
def problemStartEqGoal : Problem := ⟨⟨1, 1⟩, ⟨0, 0⟩, [⟨0, 0⟩], []⟩

/-- The spec's 5x5 wall-free scenario: start (0,0), goal (4,4). -/
def problemFiveByFive : Problem := ⟨⟨5, 5⟩, ⟨0, 0⟩, [⟨4, 4⟩], []⟩

/-- A wall-free 1x2 maze: start (0,0), goal (1,0). -/
def problemTwoCells : Problem := ⟨⟨1, 2⟩, ⟨0, 0⟩, [⟨1, 0⟩], []⟩

/-- A 1x3 maze with two goals, the first of which is sealed inside a wall. -/
def problemMultiGoal : Problem := ⟨⟨1, 3⟩, ⟨0, 0⟩, [⟨2, 0⟩, ⟨1, 0⟩], [⟨2, 0, 1, 1⟩]⟩

/-- Invariant of every strategy's search tree: coordinates are pairwise
distinct, and at most one node (the root, which is never filtered) can lie
out of bounds. -/
def TreeInv (mazeSize : MazeSize) (tree : List Node) : Prop :=
  ((tree.map Node.coordinates).Nodup) ∧
  ((tree.filter fun n => checkOutOfBounds n.coordinates mazeSize).length ≤ 1)

/-- Invariant of every strategy's frontier: each frontier node, and each node
of its ancestor chain, already sits in the search tree. -/
def FrontierMemInv (frontier tree : List Node) : Prop :=
  ∀ n ∈ frontier, n ∈ tree ∧ ∀ m ∈ n.previousCoordinates, m ∈ tree

/-- Weak frontier invariant used by the bidirectional strategy: every frontier
node's coordinate occurs in the corresponding search tree. -/
def FrontierCoordInv (frontier tree : List Node) : Prop :=
  ∀ n ∈ frontier, ∃ p ∈ tree, p.coordinates = n.coordinates

/-- Invariant of the depth-limited strategy's frontier: each node's recorded
depth is its ancestor count and stays within the depth limit. -/
def DepthInv (frontier : List Node) : Prop :=
  ∀ n ∈ frontier,
    (n.previousCoordinates.length : Int) = n.depth ∧ 0 ≤ n.depth ∧ n.depth ≤ depthLimit

/-- The root node of the 1x2 maze search. -/
def rootTwoCells : Node := getInitialNode ⟨0, 0⟩ ⟨1, 0⟩

/-- The goal node generated east of the root on the 1x2 maze. -/
def goalNodeTwoCells : Node :=
  Node.mk "right; " ⟨1, 0⟩ true [getInitialNode ⟨0, 0⟩ ⟨1, 0⟩] ⟨0, 1, 1⟩ 1

/-- The backward root of the bidirectional search on the 1x2 maze. -/
def reverseRootTwoCells : Node := getInitialNode ⟨1, 0⟩ ⟨0, 0⟩

/-- The node generated west of the backward root on the 1x2 maze. -/
def reverseGoalNodeTwoCells : Node :=
  Node.mk "left; " ⟨0, 0⟩ true [getInitialNode ⟨1, 0⟩ ⟨0, 0⟩] ⟨0, 1, 1⟩ 1

/-- Two coordinates with equal components are equal. -/
theorem coord_eq_of_xy {a b : Coord} (hx : a.x = b.x) (hy : a.y = b.y) : a = b := by
  cases a; cases b; simp_all

/-- Every candidate returned by `probeCoordinates` passed all three filters. -/
theorem mem_probe_filter {currentLocation : Coord} {path : List Node}
    {mazeSize : MazeSize} {goal : Coord} {walls : List Wall}
    {searchTree : List Node} {n : Node}
    (h : n ∈ probeCoordinates currentLocation path mazeSize goal walls searchTree) :
    checkWall n.coordinates walls = false ∧
    checkOutOfBounds n.coordinates mazeSize = false ∧
    checkBacktrack n.coordinates searchTree = false := by
  unfold probeCoordinates at h
  rw [List.mem_filter] at h
  have hp := h.2
  simp only [Bool.not_eq_true', Bool.or_eq_false_iff] at hp
  exact ⟨hp.1.1, hp.1.2, hp.2⟩

/-- Every candidate returned by `probeCoordinates` carries the supplied path as
its ancestor chain, the incremented depth, and the heuristic record computed
by `calculateManhattan`; its goal flag is `checkGoal` of its coordinate. -/
theorem mem_probe_structure {currentLocation : Coord} {path : List Node}
    {mazeSize : MazeSize} {goal : Coord} {walls : List Wall}
    {searchTree : List Node} {n : Node}
    (h : n ∈ probeCoordinates currentLocation path mazeSize goal walls searchTree) :
    n.previousCoordinates = path ∧
    n.depth = lastDepth path + 1 ∧
    n.distanceToGoal = calculateManhattan n.coordinates path goal ∧
    n.isGoal = checkGoal n.coordinates goal := by
  unfold probeCoordinates at h
  rw [List.mem_filter] at h
  have h1 := h.1
  simp only [List.mem_map] at h1
  obtain ⟨dc, _, rfl⟩ := h1
  exact ⟨rfl, rfl, rfl, rfl⟩

/-- `checkBacktrack` is true exactly when the coordinate already occurs in the tree. -/
theorem checkBacktrack_iff {c : Coord} {tree : List Node} :
    checkBacktrack c tree = true ↔ ∃ p ∈ tree, p.coordinates = c := by
  unfold checkBacktrack
  rw [List.any_eq_true]
  constructor
  · rintro ⟨p, hp, hb⟩
    rw [Bool.and_eq_true, beq_iff_eq, beq_iff_eq] at hb
    exact ⟨p, hp, coord_eq_of_xy hb.1 hb.2⟩
  · rintro ⟨p, hp, rfl⟩
    exact ⟨p, hp, by simp⟩

/-- C1: for every maze, goal, ancestor path and search tree, the candidate
list returned by the expansion engine contains no node inside a wall
rectangle, none out of the maze bounds, and none whose (x,y) coordinate
already occurs anywhere in the supplied search tree. -/
theorem probe_candidates_filtered
    (currentLocation : Coord) (path : List Node) (mazeSize : MazeSize)
    (goal : Coord) (walls : List Wall) (searchTree : List Node) (n : Node)
    (h : n ∈ probeCoordinates currentLocation path mazeSize goal walls searchTree) :
    checkWall n.coordinates walls = false ∧
    checkOutOfBounds n.coordinates mazeSize = false ∧
    ∀ p ∈ searchTree, p.coordinates ≠ n.coordinates := by
  obtain ⟨hw, ho, hb⟩ := mem_probe_filter h
  refine ⟨hw, ho, fun p hp heq => ?_⟩
  rw [← Bool.not_eq_true, checkBacktrack_iff] at hb
  exact hb ⟨p, hp, heq⟩

/-- Witness for C1 on the 1x2 maze: the single candidate east of the root. -/
theorem probe_candidates_filtered_witness :
    checkWall (Node.mk "right; " ⟨1,0⟩ true [getInitialNode ⟨0,0⟩ ⟨1,0⟩] ⟨0,1,1⟩ 1).coordinates [] = false ∧
    checkOutOfBounds (Node.mk "right; " ⟨1,0⟩ true [getInitialNode ⟨0,0⟩ ⟨1,0⟩] ⟨0,1,1⟩ 1).coordinates ⟨1,2⟩ = false ∧
    ∀ p ∈ [getInitialNode ⟨0,0⟩ ⟨1,0⟩],
      p.coordinates ≠ (Node.mk "right; " ⟨1,0⟩ true [getInitialNode ⟨0,0⟩ ⟨1,0⟩] ⟨0,1,1⟩ 1).coordinates :=
  probe_candidates_filtered ⟨0,0⟩ [getInitialNode ⟨0,0⟩ ⟨1,0⟩] ⟨1,2⟩ ⟨1,0⟩ []
    [getInitialNode ⟨0,0⟩ ⟨1,0⟩]
    (Node.mk "right; " ⟨1,0⟩ true [getInitialNode ⟨0,0⟩ ⟨1,0⟩] ⟨0,1,1⟩ 1)
    (by
      have e : probeCoordinates ⟨0,0⟩ [getInitialNode ⟨0,0⟩ ⟨1,0⟩] ⟨1,2⟩ ⟨1,0⟩ []
          [getInitialNode ⟨0,0⟩ ⟨1,0⟩] =
          [Node.mk "right; " ⟨1,0⟩ true [getInitialNode ⟨0,0⟩ ⟨1,0⟩] ⟨0,1,1⟩ 1] := rfl
      rw [e]
      exact List.mem_singleton_self _)

/-- C3: every node built by the expansion engine has `fromStartingNode` equal
to its parent's `fromStartingNode` (the last ancestor, with 0 for an empty
ancestor path) plus its own Manhattan distance to the goal, `fromCurrentNode`
equal to its own Manhattan distance to the goal, and `nodesTravelled` equal
to the length of its ancestor path — a cumulative per-ancestor heuristic sum,
not a true path cost. -/
theorem probe_heuristic_recurrence
    (currentLocation : Coord) (path : List Node) (mazeSize : MazeSize)
    (goal : Coord) (walls : List Wall) (searchTree : List Node) (n : Node)
    (h : n ∈ probeCoordinates currentLocation path mazeSize goal walls searchTree) :
    n.distanceToGoal.fromStartingNode =
      (match n.previousCoordinates.getLast? with
       | some p => p.distanceToGoal.fromStartingNode
       | none => 0) + manhattanDistance n.coordinates goal ∧
    n.distanceToGoal.fromCurrentNode = manhattanDistance n.coordinates goal ∧
    n.distanceToGoal.nodesTravelled = n.previousCoordinates.length := by
  obtain ⟨hprev, -, hdist, -⟩ := mem_probe_structure h
  rw [hdist, hprev]
  unfold calculateManhattan
  exact ⟨rfl, rfl, rfl⟩

/-- Witness for C3 on the 1x2 maze: the candidate's cost record is
(0 from itself, 1 cumulative, 1 travelled). -/
theorem probe_heuristic_recurrence_witness :
    (Node.mk "right; " ⟨1,0⟩ true [getInitialNode ⟨0,0⟩ ⟨1,0⟩] ⟨0,1,1⟩ 1).distanceToGoal.fromStartingNode =
      (match (Node.mk "right; " ⟨1,0⟩ true [getInitialNode ⟨0,0⟩ ⟨1,0⟩] ⟨0,1,1⟩ 1).previousCoordinates.getLast? with
       | some p => p.distanceToGoal.fromStartingNode
       | none => 0) + manhattanDistance (Node.mk "right; " ⟨1,0⟩ true [getInitialNode ⟨0,0⟩ ⟨1,0⟩] ⟨0,1,1⟩ 1).coordinates ⟨1,0⟩ ∧
    (Node.mk "right; " ⟨1,0⟩ true [getInitialNode ⟨0,0⟩ ⟨1,0⟩] ⟨0,1,1⟩ 1).distanceToGoal.fromCurrentNode =
      manhattanDistance (Node.mk "right; " ⟨1,0⟩ true [getInitialNode ⟨0,0⟩ ⟨1,0⟩] ⟨0,1,1⟩ 1).coordinates ⟨1,0⟩ ∧
    (Node.mk "right; " ⟨1,0⟩ true [getInitialNode ⟨0,0⟩ ⟨1,0⟩] ⟨0,1,1⟩ 1).distanceToGoal.nodesTravelled =
      (Node.mk "right; " ⟨1,0⟩ true [getInitialNode ⟨0,0⟩ ⟨1,0⟩] ⟨0,1,1⟩ 1).previousCoordinates.length :=
  probe_heuristic_recurrence ⟨0,0⟩ [getInitialNode ⟨0,0⟩ ⟨1,0⟩] ⟨1,2⟩ ⟨1,0⟩ []
    [getInitialNode ⟨0,0⟩ ⟨1,0⟩]
    (Node.mk "right; " ⟨1,0⟩ true [getInitialNode ⟨0,0⟩ ⟨1,0⟩] ⟨0,1,1⟩ 1)
    (by
      have e : probeCoordinates ⟨0,0⟩ [getInitialNode ⟨0,0⟩ ⟨1,0⟩] ⟨1,2⟩ ⟨1,0⟩ []
          [getInitialNode ⟨0,0⟩ ⟨1,0⟩] =
          [Node.mk "right; " ⟨1,0⟩ true [getInitialNode ⟨0,0⟩ ⟨1,0⟩] ⟨0,1,1⟩ 1] := rfl
      rw [e]
      exact List.mem_singleton_self _)

/-- C2 (failing input): on the wall-free 1x1 maze with start = goal = (0,0)
(both in bounds, Manhattan distance 0), BFS returns `fail` with an empty path
instead of the claimed `found` — the root is built with `isGoal` hardcoded
`false` and the start cell can never be generated again.  With distinct
endpoints the claim's 5x5 scenario does hold: `found` with path length 8. -/
theorem bfs_start_eq_goal_fails :
    (findSolution problemStartEqGoal ⟨0,0⟩ ⟨0,0⟩ "BFS").map Solution.status = some .fail ∧
    (findSolution problemStartEqGoal ⟨0,0⟩ ⟨0,0⟩ "BFS").map (fun s => s.path.length) = some 0 ∧
    (findSolution problemFiveByFive ⟨0,0⟩ ⟨4,4⟩ "BFS").map Solution.status = some .found ∧
    (findSolution problemFiveByFive ⟨0,0⟩ ⟨4,4⟩ "BFS").map (fun s => s.path.length) = some 8 :=
  ⟨rfl, rfl, rfl, rfl⟩

/-- C4 (failing input): on the 1x1 maze whose start equals its goal, every
single-tree strategy returns `fail` with an empty path and the root-only tree
(the root's `isGoal` is hardcoded `false`), not the claimed `found`; the
bidirectional strategy alone returns `found`. -/
theorem single_goal_start_eq_goal_fails :
    findSolution problemStartEqGoal ⟨0,0⟩ ⟨0,0⟩ "DFS" =
      some ⟨.fail, [], [getInitialNode ⟨0,0⟩ ⟨0,0⟩]⟩ ∧
    findSolution problemStartEqGoal ⟨0,0⟩ ⟨0,0⟩ "BFS" =
      some ⟨.fail, [], [getInitialNode ⟨0,0⟩ ⟨0,0⟩]⟩ ∧
    findSolution problemStartEqGoal ⟨0,0⟩ ⟨0,0⟩ "GBFS" =
      some ⟨.fail, [], [getInitialNode ⟨0,0⟩ ⟨0,0⟩]⟩ ∧
    findSolution problemStartEqGoal ⟨0,0⟩ ⟨0,0⟩ "AS" =
      some ⟨.fail, [], [getInitialNode ⟨0,0⟩ ⟨0,0⟩]⟩ ∧
    findSolution problemStartEqGoal ⟨0,0⟩ ⟨0,0⟩ "CUS1" =
      some ⟨.fail, [], [getInitialNode ⟨0,0⟩ ⟨0,0⟩]⟩ ∧
    (findSolution problemStartEqGoal ⟨0,0⟩ ⟨0,0⟩ "CUS2").map Solution.status =
      some .found :=
  ⟨rfl, rfl, rfl, rfl, rfl, rfl⟩

/-- C7 (failing input): on the wall-free 1x1 maze with start = goal, plain A*
returns `fail` (the hardcoded-false root goal flag) while bidirectional A*
returns `found` with an empty path — the two strategies do not both return
`found` with equal path lengths. -/
theorem aStar_customTwo_start_eq_goal_diverge :
    (findSolution problemStartEqGoal ⟨0,0⟩ ⟨0,0⟩ "AS").map Solution.status = some .fail ∧
    (findSolution problemStartEqGoal ⟨0,0⟩ ⟨0,0⟩ "CUS2").map Solution.status = some .found ∧
    (findSolution problemStartEqGoal ⟨0,0⟩ ⟨0,0⟩ "CUS2").map (fun s => s.path.length) = some 0 :=
  ⟨rfl, rfl, rfl⟩

/-- C5 counterexample: on `problemMultiGoal` with BFS, the first visited leg
(goal (2,0), sealed inside a wall) fails, yet the combined solution's status
is `found` — the claimed "Found iff every sub-leg Found" is false at this
concrete input. -/
theorem searchAllGoals_found_despite_failed_leg :
    ¬ (∀ sol legs, searchAllGoals problemMultiGoal "BFS" = some sol →
        legsLoop problemMultiGoal "BFS" problemMultiGoal.goals.length
          problemMultiGoal.goals.enum problemMultiGoal.agentLocation = some legs →
        (sol.status = .found ↔ ∀ leg ∈ legs, leg.2.status = .found)) := by
  intro h
  have h2 := (h _ _ rfl rfl).mp rfl
  have h3 := h2 _ (List.mem_cons_self _ _)
  exact absurd h3 (by decide)

/-- `popLast` returns `none` exactly on the empty list. -/
theorem popLast_eq_none_iff {α : Type _} {l : List α} : popLast l = none ↔ l = [] := by
  cases l with
  | nil => simp [popLast]
  | cons a rest =>
    constructor
    · intro h
      unfold popLast at h
      cases hr : popLast rest <;> simp [hr] at h
    · intro h
      exact absurd h (by simp)

/-- `popLast` splits the list into its last element and the rest. -/
theorem popLast_eq_some {α : Type _} :
    ∀ {l r : List α} {x : α}, popLast l = some (x, r) → l = r ++ [x] := by
  intro l
  induction l with
  | nil => intro r x h; simp [popLast] at h
  | cons a rest ih =>
    intro r x h
    unfold popLast at h
    cases hr : popLast rest with
    | none =>
      rw [hr] at h
      have : rest = [] := popLast_eq_none_iff.mp hr
      simp at h
      simp [this, ← h.1, ← h.2]
    | some xr =>
      rw [hr] at h
      simp at h
      have := ih (r := xr.2) (x := xr.1) (by rw [hr])
      rw [← h.2, this, ← h.1]
      simp

/-- `popLast` of a list with its last element appended. -/
theorem popLast_append {α : Type _} (l : List α) (a : α) :
    popLast (l ++ [a]) = some (a, l) := by
  induction l with
  | nil => simp [popLast]
  | cons b rest ih => simp [popLast, ih]

/-- `stableInsert` permutes consing. -/
theorem stableInsert_perm {α : Type _} (le : α → α → Bool) (a : α) (l : List α) :
    (stableInsert le a l).Perm (a :: l) := by
  induction l with
  | nil => simp [stableInsert]
  | cons b bs ih =>
    unfold stableInsert
    split
    · exact (ih.cons b).trans (List.Perm.swap a b bs)
    · exact List.Perm.refl _

/-- `stableSort` permutes its input. -/
theorem stableSort_perm {α : Type _} (le : α → α → Bool) (l : List α) :
    (stableSort le l).Perm l := by
  suffices h : ∀ acc : List α,
      (l.foldl (fun acc x => stableInsert le x acc) acc).Perm (acc ++ l) by
    simpa [stableSort] using h []
  induction l with
  | nil => intro acc; simp
  | cons x xs ih =>
    intro acc
    have h1 := ih (stableInsert le x acc)
    have h2 : (stableInsert le x acc ++ xs).Perm (acc ++ x :: xs) := by
      have := (stableInsert_perm le x acc).append_right xs
      exact this.trans List.perm_middle.symm
    simpa using h1.trans h2

/-- `stableSort` preserves length. -/
theorem length_stableSort {α : Type _} (le : α → α → Bool) (l : List α) :
    (stableSort le l).length = l.length :=
  (stableSort_perm le l).length_eq

/-- `stableSort` preserves membership. -/
theorem mem_stableSort {α : Type _} {le : α → α → Bool} {l : List α} {a : α} :
    a ∈ stableSort le l ↔ a ∈ l :=
  (stableSort_perm le l).mem_iff

/-- `gridCoords` lists `rows * columns` coordinates. -/
theorem length_gridCoords (mazeSize : MazeSize) :
    (gridCoords mazeSize).length =
      mazeSize.rows.toNat * mazeSize.columns.toNat := by
  unfold gridCoords
  rw [List.length_flatMap]
  simp [Function.comp_def, List.map_const', List.sum_replicate, Nat.smul_one_eq_cast]

/-- Every in-bounds coordinate occurs in `gridCoords`. -/
theorem mem_gridCoords {c : Coord} {mazeSize : MazeSize}
    (h : checkOutOfBounds c mazeSize = false) : c ∈ gridCoords mazeSize := by
  unfold checkOutOfBounds at h
  simp only [Bool.or_eq_false_iff, decide_eq_false_iff_not, not_lt, not_le] at h
  obtain ⟨⟨⟨hx0, hxc⟩, hy0⟩, hyr⟩ := h
  unfold gridCoords
  refine List.mem_flatMap.mpr ⟨c.y.toNat, List.mem_range.mpr ?_,
    List.mem_map.mpr ⟨c.x.toNat, List.mem_range.mpr ?_, ?_⟩⟩
  · omega
  · omega
  · exact coord_eq_of_xy (by simp [Int.ofNat_eq_natCast, Int.toNat_of_nonneg hx0])
      (by simp [Int.ofNat_eq_natCast, Int.toNat_of_nonneg hy0])

/-- The four probe candidates have pairwise distinct coordinates, so the
returned candidate list has pairwise distinct coordinates. -/
theorem probe_coords_nodup (currentLocation : Coord) (path : List Node)
    (mazeSize : MazeSize) (goal : Coord) (walls : List Wall)
    (searchTree : List Node) :
    ((probeCoordinates currentLocation path mazeSize goal walls searchTree).map
      Node.coordinates).Nodup := by
  have hs : ([⟨currentLocation.x, currentLocation.y - 1⟩,
      ⟨currentLocation.x - 1, currentLocation.y⟩,
      ⟨currentLocation.x, currentLocation.y + 1⟩,
      ⟨currentLocation.x + 1, currentLocation.y⟩] : List Coord).Nodup := by
    refine List.nodup_cons.mpr ⟨?_, List.nodup_cons.mpr ⟨?_,
      List.nodup_cons.mpr ⟨?_, List.nodup_singleton _⟩⟩⟩
    · intro hmem
      simp only [List.mem_cons, List.mem_singleton, List.not_mem_nil, or_false] at hmem
      rcases hmem with h | h | h <;> (rw [Coord.mk.injEq] at h; omega)
    · intro hmem
      simp only [List.mem_cons, List.mem_singleton, List.not_mem_nil, or_false] at hmem
      rcases hmem with h | h <;> (rw [Coord.mk.injEq] at h; omega)
    · intro hmem
      rw [List.mem_singleton, Coord.mk.injEq] at hmem
      omega
  unfold probeCoordinates
  exact List.Nodup.sublist (List.Sublist.map _ (List.filter_sublist _)) hs

/-- A tree with distinct coordinates and at most one out-of-bounds node holds
at most `rows * columns + 1` nodes. -/
theorem tree_length_le {mazeSize : MazeSize} {tree : List Node}
    (hinv : TreeInv mazeSize tree) :
    tree.length ≤ mazeSize.rows.toNat * mazeSize.columns.toNat + 1 := by
  obtain ⟨hnd, hoob⟩ := hinv
  have hsplit : (tree.filter fun n => checkOutOfBounds n.coordinates mazeSize).length +
      (tree.filter fun n => !(checkOutOfBounds n.coordinates mazeSize)).length =
      tree.length := by
    have := (List.filter_append_perm
      (fun n => checkOutOfBounds n.coordinates mazeSize) tree).length_eq
    simpa [List.length_append] using this
  have hin : (tree.filter fun n => !(checkOutOfBounds n.coordinates mazeSize)).length ≤
      mazeSize.rows.toNat * mazeSize.columns.toNat := by
    have h1 : (((tree.filter fun n => !(checkOutOfBounds n.coordinates mazeSize)).map
        Node.coordinates)).Nodup :=
      List.Nodup.sublist (List.Sublist.map _ (List.filter_sublist _)) hnd
    have h2 : ((tree.filter fun n => !(checkOutOfBounds n.coordinates mazeSize)).map
        Node.coordinates) ⊆ gridCoords mazeSize := by
      intro c hc
      rw [List.mem_map] at hc
      obtain ⟨n, hn, rfl⟩ := hc
      have hmem := (List.mem_filter.mp hn).2
      exact mem_gridCoords (by simpa using hmem)
    have := (List.subperm_of_subset h1 h2).length_le
    simpa [List.length_map, length_gridCoords] using this
  omega

/-- Appending probe candidates preserves the tree invariant. -/
theorem treeInv_append_probe {mazeSize : MazeSize} {tree : List Node}
    (currentLocation : Coord) (path : List Node) (goal : Coord) (walls : List Wall)
    (hinv : TreeInv mazeSize tree) :
    TreeInv mazeSize
      (tree ++ probeCoordinates currentLocation path mazeSize goal walls tree) := by
  obtain ⟨hnd, hoob⟩ := hinv
  constructor
  · rw [List.map_append, List.nodup_append]
    refine ⟨hnd, ?_, ?_⟩
    · exact probe_coords_nodup currentLocation path mazeSize goal walls tree
    · intro c hc1 hc2
      rw [List.mem_map] at hc1 hc2
      obtain ⟨p, hp, rfl⟩ := hc1
      obtain ⟨n, hn, hcn⟩ := hc2
      have hb := (mem_probe_filter hn).2.2
      rw [← Bool.not_eq_true, checkBacktrack_iff] at hb
      exact hb ⟨p, hp, hcn.symm⟩
  · rw [List.filter_append, List.length_append]
    have : (List.filter (fun n => checkOutOfBounds n.coordinates mazeSize)
        (probeCoordinates currentLocation path mazeSize goal walls tree)) = [] := by
      rw [List.filter_eq_nil_iff]
      intro n hn
      simp [(mem_probe_filter hn).2.1]
    rw [this]
    simpa using hoob

/-- The DFS loop only ever appends to the search tree: any state's tree is a
prefix of the returned solution's tree. -/
theorem dfsLoop_tree_prefix {mazeSize : MazeSize} {walls : List Wall} {goal : Coord} :
    ∀ (fuel : Nat) (frontier tree : List Node) (sol : Solution),
      dfsLoop mazeSize walls goal fuel frontier tree = some sol →
      tree <+: sol.searchTree := by
  intro fuel
  induction fuel with
  | zero =>
    intro frontier tree sol h
    rw [dfsLoop] at h
    cases hpop : popLast frontier with
    | none =>
      rw [hpop] at h
      simp at h
      rw [← h]
    | some xr =>
      rw [hpop] at h
      simp at h
  | succ fuel ih =>
    intro frontier tree sol h
    rw [dfsLoop] at h
    cases hpop : popLast frontier with
    | none =>
      rw [hpop] at h
      simp at h
      rw [← h]
    | some xr =>
      rw [hpop] at h
      simp only [] at h
      by_cases hg : xr.1.isGoal
      · simp [hg] at h
        rw [← h]
      · simp only [hg, Bool.false_eq_true, if_false] at h
        exact (List.prefix_append tree _).trans (ih _ _ _ h)


/-- The BFS loop only ever appends to the search tree. -/
theorem bfsLoop_tree_prefix {mazeSize : MazeSize} {walls : List Wall} {goal : Coord} :
    ∀ (fuel : Nat) (frontier tree : List Node) (sol : Solution),
      bfsLoop mazeSize walls goal fuel frontier tree = some sol →
      tree <+: sol.searchTree := by
  intro fuel
  induction fuel with
  | zero =>
    intro frontier tree sol h
    rw [bfsLoop.eq_def] at h
    cases frontier with
    | nil => simp at h; rw [← h]
    | cons sl rest => simp at h
  | succ fuel ih =>
    intro frontier tree sol h
    rw [bfsLoop.eq_def] at h
    cases frontier with
    | nil => simp at h; rw [← h]
    | cons sl rest =>
      simp only [] at h
      by_cases hg : sl.isGoal
      · simp [hg] at h
        rw [← h]
      · simp only [hg, Bool.false_eq_true, if_false] at h
        exact (List.prefix_append tree _).trans (ih _ _ _ h)

/-- The GBFS loop only ever appends to the search tree. -/
theorem gbfsLoop_tree_prefix {mazeSize : MazeSize} {walls : List Wall} {goal : Coord} :
    ∀ (fuel : Nat) (frontier tree : List Node) (sol : Solution),
      gbfsLoop mazeSize walls goal fuel frontier tree = some sol →
      tree <+: sol.searchTree := by
  intro fuel
  induction fuel with
  | zero =>
    intro frontier tree sol h
    rw [gbfsLoop.eq_def] at h
    cases frontier with
    | nil => simp at h; rw [← h]
    | cons sl rest => simp at h
  | succ fuel ih =>
    intro frontier tree sol h
    rw [gbfsLoop.eq_def] at h
    cases frontier with
    | nil => simp at h; rw [← h]
    | cons sl rest =>
      simp only [] at h
      by_cases hg : sl.isGoal
      · simp [hg] at h
        rw [← h]
      · simp only [hg, Bool.false_eq_true, if_false] at h
        exact (List.prefix_append tree _).trans (ih _ _ _ h)

/-- The A* loop only ever appends to the search tree. -/
theorem aStarLoop_tree_prefix {mazeSize : MazeSize} {walls : List Wall} {goal : Coord} :
    ∀ (fuel : Nat) (frontier tree : List Node) (sol : Solution),
      aStarLoop mazeSize walls goal fuel frontier tree = some sol →
      tree <+: sol.searchTree := by
  intro fuel
  induction fuel with
  | zero =>
    intro frontier tree sol h
    rw [aStarLoop.eq_def] at h
    cases frontier with
    | nil => simp at h; rw [← h]
    | cons sl rest => simp at h
  | succ fuel ih =>
    intro frontier tree sol h
    rw [aStarLoop.eq_def] at h
    cases frontier with
    | nil => simp at h; rw [← h]
    | cons sl rest =>
      simp only [] at h
      by_cases hg : sl.isGoal
      · simp [hg] at h
        rw [← h]
      · simp only [hg, Bool.false_eq_true, if_false] at h
        exact (List.prefix_append tree _).trans (ih _ _ _ h)

/-- The depth-limited DFS loop only ever appends to the search tree. -/
theorem customOneLoop_tree_prefix {mazeSize : MazeSize} {walls : List Wall} {goal : Coord} :
    ∀ (fuel : Nat) (frontier tree : List Node) (sol : Solution),
      customOneLoop mazeSize walls goal fuel frontier tree = some sol →
      tree <+: sol.searchTree := by
  intro fuel
  induction fuel with
  | zero =>
    intro frontier tree sol h
    rw [customOneLoop] at h
    cases hpop : popLast frontier with
    | none =>
      rw [hpop] at h
      simp at h
      rw [← h]
    | some xr =>
      rw [hpop] at h
      simp at h
  | succ fuel ih =>
    intro frontier tree sol h
    rw [customOneLoop] at h
    cases hpop : popLast frontier with
    | none =>
      rw [hpop] at h
      simp at h
      rw [← h]
    | some xr =>
      rw [hpop] at h
      simp only [] at h
      by_cases hg : xr.1.isGoal
      · simp [hg] at h
        rw [← h]
      · simp only [hg, Bool.false_eq_true, if_false] at h
        exact (List.prefix_append tree _).trans (ih _ _ _ h)

/-- The bidirectional loop only ever appends to its two search trees; the
returned tree splits as the forward tree followed by the backward tree. -/
theorem customTwoLoop_tree_decomp {mazeSize : MazeSize} {walls : List Wall}
    {goal agentLocation : Coord} :
    ∀ (fuel : Nat) (frontier tree reverseFrontier reverseTree : List Node)
      (sol : Solution),
      customTwoLoop mazeSize walls goal agentLocation fuel frontier tree
        reverseFrontier reverseTree = some sol →
      ∃ t r, sol.searchTree = t ++ r ∧ tree <+: t ∧ reverseTree <+: r := by
  intro fuel
  induction fuel with
  | zero =>
    intro frontier tree rfrontier rtree sol h
    rw [customTwoLoop.eq_def] at h
    cases frontier with
    | nil =>
      simp at h
      exact ⟨tree, rtree, by rw [← h], List.prefix_rfl, List.prefix_rfl⟩
    | cons sl rest =>
      cases rfrontier with
      | nil =>
        simp at h
        exact ⟨tree, rtree, by rw [← h], List.prefix_rfl, List.prefix_rfl⟩
      | cons rsl rrest => simp at h
  | succ fuel ih =>
    intro frontier tree rfrontier rtree sol h
    rw [customTwoLoop.eq_def] at h
    cases frontier with
    | nil =>
      simp at h
      exact ⟨tree, rtree, by rw [← h], List.prefix_rfl, List.prefix_rfl⟩
    | cons sl rest =>
      cases rfrontier with
      | nil =>
        simp at h
        exact ⟨tree, rtree, by rw [← h], List.prefix_rfl, List.prefix_rfl⟩
      | cons rsl rrest =>
        simp only [] at h
        by_cases h1 : rtree.any fun p =>
            p.coordinates.x == sl.coordinates.x && p.coordinates.y == sl.coordinates.y
        · simp only [h1, if_true] at h
          cases hf : tree.find? fun node =>
              node.coordinates.x == sl.coordinates.x &&
              node.coordinates.y == sl.coordinates.y with
          | none => rw [hf] at h; simp at h
          | some fn =>
            rw [hf] at h
            cases hr : rtree.find? fun node =>
                node.coordinates.x == sl.coordinates.x &&
                node.coordinates.y == sl.coordinates.y with
            | none => rw [hr] at h; simp at h
            | some rn =>
              rw [hr] at h
              simp at h
              exact ⟨tree, rtree, by rw [← h], List.prefix_rfl, List.prefix_rfl⟩
        · simp only [h1, Bool.false_eq_true, if_false] at h
          by_cases h2 : tree.any fun p =>
              p.coordinates.x == rsl.coordinates.x && p.coordinates.y == rsl.coordinates.y
          · simp only [h2, if_true] at h
            cases hf : tree.find? fun node =>
                node.coordinates.x == rsl.coordinates.x &&
                node.coordinates.y == rsl.coordinates.y with
            | none => rw [hf] at h; simp at h
            | some fn =>
              rw [hf] at h
              cases hr : rtree.find? fun node =>
                  node.coordinates.x == rsl.coordinates.x &&
                  node.coordinates.y == rsl.coordinates.y with
              | none => rw [hr] at h; simp at h
              | some rn =>
                rw [hr] at h
                simp at h
                exact ⟨tree, rtree, by rw [← h], List.prefix_rfl, List.prefix_rfl⟩
          · simp only [h2, Bool.false_eq_true, if_false] at h
            obtain ⟨t, r, heq, hp1, hp2⟩ := ih _ _ _ _ _ h
            exact ⟨t, r, heq, (List.prefix_append tree _).trans hp1,
              (List.prefix_append rtree _).trans hp2⟩

/-- Appending reversed probe candidates preserves the tree invariant. -/
theorem treeInv_append_probe_reverse {mazeSize : MazeSize} {tree : List Node}
    (currentLocation : Coord) (path : List Node) (goal : Coord) (walls : List Wall)
    (hinv : TreeInv mazeSize tree) :
    TreeInv mazeSize
      (tree ++ (probeCoordinates currentLocation path mazeSize goal walls tree).reverse) := by
  obtain ⟨h1, h2⟩ := treeInv_append_probe currentLocation path goal walls hinv
  rw [List.map_append, List.nodup_append] at h1
  rw [List.filter_append, List.length_append] at h2
  constructor
  · rw [List.map_append, List.nodup_append, List.map_reverse, List.nodup_reverse]
    refine ⟨h1.1, h1.2.1, ?_⟩
    intro c hc1 hc2
    rw [List.mem_reverse] at hc2
    exact h1.2.2 hc1 hc2
  · rw [List.filter_append, List.length_append, List.filter_reverse, List.length_reverse]
    exact h2

/-- One expansion step preserves the frontier-membership invariant: the new
frontier draws from the old frontier and the freshly appended candidates. -/
theorem frontierMemInv_after_expand (mazeSize : MazeSize) (walls : List Wall)
    (goal : Coord) {sl : Node} {oldFrontier tree frontier' cands : List Node}
    (hinv : FrontierMemInv oldFrontier tree)
    (hsl : sl ∈ oldFrontier)
    (hcand : ∀ n ∈ cands,
      n ∈ probeCoordinates sl.coordinates (sl.previousCoordinates ++ [sl])
        mazeSize goal walls tree)
    (hf : ∀ n ∈ frontier', n ∈ oldFrontier ∨ n ∈ cands) :
    FrontierMemInv frontier' (tree ++ cands) := by
  intro n hn
  rcases hf n hn with ho | hc
  · obtain ⟨ht, hprev⟩ := hinv n ho
    exact ⟨List.mem_append_left _ ht, fun m hm => List.mem_append_left _ (hprev m hm)⟩
  · refine ⟨List.mem_append_right _ hc, ?_⟩
    intro m hm
    have hprev := (mem_probe_structure (hcand n hc)).1
    rw [hprev] at hm
    rcases List.mem_append.mp hm with hm1 | hm2
    · exact List.mem_append_left _ ((hinv sl hsl).2 m hm1)
    · rw [List.mem_singleton] at hm2
      rw [hm2]
      exact List.mem_append_left _ (hinv sl hsl).1

/-- Path entries of a solution returned at a goal node come from the tree. -/
theorem path_mem_of_found {tree : List Node} {sl : Node} {frontier : List Node}
    (hinv : FrontierMemInv frontier tree) (hsl : sl ∈ frontier) :
    ∀ e ∈ (List.map PathElem.node sl.previousCoordinates ++ [PathElem.node sl]).tail,
      ∃ n ∈ tree, e = PathElem.node n := by
  intro e he
  have he' := List.mem_of_mem_tail he
  rcases List.mem_append.mp he' with h1 | h2
  · rw [List.mem_map] at h1
    obtain ⟨m, hm, rfl⟩ := h1
    exact ⟨m, (hinv sl hsl).2 m hm, rfl⟩
  · rw [List.mem_singleton] at h2
    subst h2
    exact ⟨sl, (hinv sl hsl).1, rfl⟩

/-- Every entry of a DFS solution's path occurs in its search tree. -/
theorem dfsLoop_path_mem {mazeSize : MazeSize} {walls : List Wall} {goal : Coord} :
    ∀ (fuel : Nat) (frontier tree : List Node) (sol : Solution),
      FrontierMemInv frontier tree →
      dfsLoop mazeSize walls goal fuel frontier tree = some sol →
      ∀ e ∈ sol.path, ∃ n ∈ sol.searchTree, e = PathElem.node n := by
  intro fuel
  induction fuel with
  | zero =>
    intro frontier tree sol hinv h
    rw [dfsLoop] at h
    cases hpop : popLast frontier with
    | none => rw [hpop] at h; simp at h; rw [← h]; simp
    | some xr => rw [hpop] at h; simp at h
  | succ fuel ih =>
    intro frontier tree sol hinv h
    rw [dfsLoop] at h
    cases hpop : popLast frontier with
    | none => rw [hpop] at h; simp at h; rw [← h]; simp
    | some xr =>
      have hfr := popLast_eq_some hpop
      have hsl : xr.1 ∈ frontier := by
        rw [hfr]; exact List.mem_append_right _ (List.mem_singleton_self _)
      rw [hpop] at h
      simp only [] at h
      by_cases hg : xr.1.isGoal
      · simp [hg] at h
        rw [← h]
        exact path_mem_of_found hinv hsl
      · simp only [hg, Bool.false_eq_true, if_false] at h
        refine ih _ _ _ (frontierMemInv_after_expand mazeSize walls goal hinv hsl ?_ ?_) h
        · intro n hn; rw [List.mem_reverse] at hn; exact hn
        · intro n hn
          rcases List.mem_append.mp hn with h1 | h2
          · exact Or.inl (by rw [hfr]; exact List.mem_append_left _ h1)
          · exact Or.inr h2

/-- Every entry of a BFS solution's path occurs in its search tree. -/
theorem bfsLoop_path_mem {mazeSize : MazeSize} {walls : List Wall} {goal : Coord} :
    ∀ (fuel : Nat) (frontier tree : List Node) (sol : Solution),
      FrontierMemInv frontier tree →
      bfsLoop mazeSize walls goal fuel frontier tree = some sol →
      ∀ e ∈ sol.path, ∃ n ∈ sol.searchTree, e = PathElem.node n := by
  intro fuel
  induction fuel with
  | zero =>
    intro frontier tree sol hinv h
    rw [bfsLoop.eq_def] at h
    cases frontier with
    | nil => simp at h; rw [← h]; simp
    | cons sl rest => simp at h
  | succ fuel ih =>
    intro frontier tree sol hinv h
    rw [bfsLoop.eq_def] at h
    cases frontier with
    | nil => simp at h; rw [← h]; simp
    | cons sl rest =>
      have hsl : sl ∈ sl :: rest := List.mem_cons_self _ _
      simp only [] at h
      by_cases hg : sl.isGoal
      · simp [hg] at h
        rw [← h]
        exact path_mem_of_found hinv hsl
      · simp only [hg, Bool.false_eq_true, if_false] at h
        refine ih _ _ _ (frontierMemInv_after_expand mazeSize walls goal hinv hsl ?_ ?_) h
        · intro n hn; exact hn
        · intro n hn
          rcases List.mem_append.mp hn with h1 | h2
          · exact Or.inl (List.mem_cons_of_mem _ h1)
          · exact Or.inr h2

/-- Every entry of a GBFS solution's path occurs in its search tree. -/
theorem gbfsLoop_path_mem {mazeSize : MazeSize} {walls : List Wall} {goal : Coord} :
    ∀ (fuel : Nat) (frontier tree : List Node) (sol : Solution),
      FrontierMemInv frontier tree →
      gbfsLoop mazeSize walls goal fuel frontier tree = some sol →
      ∀ e ∈ sol.path, ∃ n ∈ sol.searchTree, e = PathElem.node n := by
  intro fuel
  induction fuel with
  | zero =>
    intro frontier tree sol hinv h
    rw [gbfsLoop.eq_def] at h
    cases frontier with
    | nil => simp at h; rw [← h]; simp
    | cons sl rest => simp at h
  | succ fuel ih =>
    intro frontier tree sol hinv h
    rw [gbfsLoop.eq_def] at h
    cases frontier with
    | nil => simp at h; rw [← h]; simp
    | cons sl rest =>
      have hsl : sl ∈ sl :: rest := List.mem_cons_self _ _
      simp only [] at h
      by_cases hg : sl.isGoal
      · simp [hg] at h
        rw [← h]
        exact path_mem_of_found hinv hsl
      · simp only [hg, Bool.false_eq_true, if_false] at h
        refine ih _ _ _ (frontierMemInv_after_expand mazeSize walls goal hinv hsl ?_ ?_) h
        · intro n hn; exact hn
        · intro n hn
          rcases List.mem_append.mp (mem_stableSort.mp hn) with h1 | h2
          · exact Or.inl (List.mem_cons_of_mem _ h1)
          · exact Or.inr h2

/-- Every entry of an A* solution's path occurs in its search tree. -/
theorem aStarLoop_path_mem {mazeSize : MazeSize} {walls : List Wall} {goal : Coord} :
    ∀ (fuel : Nat) (frontier tree : List Node) (sol : Solution),
      FrontierMemInv frontier tree →
      aStarLoop mazeSize walls goal fuel frontier tree = some sol →
      ∀ e ∈ sol.path, ∃ n ∈ sol.searchTree, e = PathElem.node n := by
  intro fuel
  induction fuel with
  | zero =>
    intro frontier tree sol hinv h
    rw [aStarLoop.eq_def] at h
    cases frontier with
    | nil => simp at h; rw [← h]; simp
    | cons sl rest => simp at h
  | succ fuel ih =>
    intro frontier tree sol hinv h
    rw [aStarLoop.eq_def] at h
    cases frontier with
    | nil => simp at h; rw [← h]; simp
    | cons sl rest =>
      have hsl : sl ∈ sl :: rest := List.mem_cons_self _ _
      simp only [] at h
      by_cases hg : sl.isGoal
      · simp [hg] at h
        rw [← h]
        exact path_mem_of_found hinv hsl
      · simp only [hg, Bool.false_eq_true, if_false] at h
        refine ih _ _ _ (frontierMemInv_after_expand mazeSize walls goal hinv hsl ?_ ?_) h
        · intro n hn; exact hn
        · intro n hn
          rcases List.mem_append.mp (mem_stableSort.mp hn) with h1 | h2
          · exact Or.inl (List.mem_cons_of_mem _ h1)
          · exact Or.inr h2

/-- Every entry of a depth-limited DFS solution's path occurs in its tree. -/
theorem customOneLoop_path_mem {mazeSize : MazeSize} {walls : List Wall} {goal : Coord} :
    ∀ (fuel : Nat) (frontier tree : List Node) (sol : Solution),
      FrontierMemInv frontier tree →
      customOneLoop mazeSize walls goal fuel frontier tree = some sol →
      ∀ e ∈ sol.path, ∃ n ∈ sol.searchTree, e = PathElem.node n := by
  intro fuel
  induction fuel with
  | zero =>
    intro frontier tree sol hinv h
    rw [customOneLoop] at h
    cases hpop : popLast frontier with
    | none => rw [hpop] at h; simp at h; rw [← h]; simp
    | some xr => rw [hpop] at h; simp at h
  | succ fuel ih =>
    intro frontier tree sol hinv h
    rw [customOneLoop] at h
    cases hpop : popLast frontier with
    | none => rw [hpop] at h; simp at h; rw [← h]; simp
    | some xr =>
      have hfr := popLast_eq_some hpop
      have hsl : xr.1 ∈ frontier := by
        rw [hfr]; exact List.mem_append_right _ (List.mem_singleton_self _)
      rw [hpop] at h
      simp only [] at h
      by_cases hg : xr.1.isGoal
      · simp [hg] at h
        rw [← h]
        exact path_mem_of_found hinv hsl
      · simp only [hg, Bool.false_eq_true, if_false] at h
        split at h
        · refine ih _ _ _ (frontierMemInv_after_expand mazeSize walls goal hinv hsl ?_ ?_) h
          · intro n hn; rw [List.mem_reverse] at hn; exact hn
          · intro n hn
            rcases List.mem_append.mp hn with h1 | h2
            · exact Or.inl (by rw [hfr]; exact List.mem_append_left _ h1)
            · exact Or.inr h2
        · refine ih _ _ _ (frontierMemInv_after_expand mazeSize walls goal hinv hsl ?_ ?_) h
          · intro n hn; rw [List.mem_reverse] at hn; exact hn
          · intro n hn
            exact Or.inl (by rw [hfr]; exact List.mem_append_left _ hn)

/-- With the tree invariant and enough fuel, the BFS loop terminates. -/
theorem bfsLoop_isSome {mazeSize : MazeSize} {walls : List Wall} {goal : Coord} :
    ∀ (fuel : Nat) (frontier tree : List Node),
      TreeInv mazeSize tree →
      frontier.length + (mazeSize.rows.toNat * mazeSize.columns.toNat + 1) ≤
        fuel + tree.length →
      (bfsLoop mazeSize walls goal fuel frontier tree).isSome := by
  intro fuel
  induction fuel with
  | zero =>
    intro frontier tree hinv hle
    have hb := tree_length_le hinv
    have hf : frontier = [] := by
      rw [← List.length_eq_zero]
      omega
    subst hf
    rw [bfsLoop.eq_def]
    simp
  | succ fuel ih =>
    intro frontier tree hinv hle
    rw [bfsLoop.eq_def]
    cases frontier with
    | nil => simp
    | cons sl rest =>
      simp only []
      by_cases hg : sl.isGoal
      · simp [hg]
      · simp only [hg, Bool.false_eq_true, if_false]
        apply ih
        · exact treeInv_append_probe _ _ _ _ hinv
        · rw [List.length_append, List.length_append]
          simp only [List.length_cons] at hle
          omega

/-- With the tree invariant and enough fuel, the GBFS loop terminates. -/
theorem gbfsLoop_isSome {mazeSize : MazeSize} {walls : List Wall} {goal : Coord} :
    ∀ (fuel : Nat) (frontier tree : List Node),
      TreeInv mazeSize tree →
      frontier.length + (mazeSize.rows.toNat * mazeSize.columns.toNat + 1) ≤
        fuel + tree.length →
      (gbfsLoop mazeSize walls goal fuel frontier tree).isSome := by
  intro fuel
  induction fuel with
  | zero =>
    intro frontier tree hinv hle
    have hb := tree_length_le hinv
    have hf : frontier = [] := by
      rw [← List.length_eq_zero]
      omega
    subst hf
    rw [gbfsLoop.eq_def]
    simp
  | succ fuel ih =>
    intro frontier tree hinv hle
    rw [gbfsLoop.eq_def]
    cases frontier with
    | nil => simp
    | cons sl rest =>
      simp only []
      by_cases hg : sl.isGoal
      · simp [hg]
      · simp only [hg, Bool.false_eq_true, if_false]
        apply ih
        · exact treeInv_append_probe _ _ _ _ hinv
        · rw [length_stableSort, List.length_append, List.length_append]
          simp only [List.length_cons] at hle
          omega

/-- With the tree invariant and enough fuel, the A* loop terminates. -/
theorem aStarLoop_isSome {mazeSize : MazeSize} {walls : List Wall} {goal : Coord} :
    ∀ (fuel : Nat) (frontier tree : List Node),
      TreeInv mazeSize tree →
      frontier.length + (mazeSize.rows.toNat * mazeSize.columns.toNat + 1) ≤
        fuel + tree.length →
      (aStarLoop mazeSize walls goal fuel frontier tree).isSome := by
  intro fuel
  induction fuel with
  | zero =>
    intro frontier tree hinv hle
    have hb := tree_length_le hinv
    have hf : frontier = [] := by
      rw [← List.length_eq_zero]
      omega
    subst hf
    rw [aStarLoop.eq_def]
    simp
  | succ fuel ih =>
    intro frontier tree hinv hle
    rw [aStarLoop.eq_def]
    cases frontier with
    | nil => simp
    | cons sl rest =>
      simp only []
      by_cases hg : sl.isGoal
      · simp [hg]
      · simp only [hg, Bool.false_eq_true, if_false]
        apply ih
        · exact treeInv_append_probe _ _ _ _ hinv
        · rw [length_stableSort, List.length_append, List.length_append]
          simp only [List.length_cons] at hle
          omega

/-- With the tree invariant and enough fuel, the DFS loop terminates. -/
theorem dfsLoop_isSome {mazeSize : MazeSize} {walls : List Wall} {goal : Coord} :
    ∀ (fuel : Nat) (frontier tree : List Node),
      TreeInv mazeSize tree →
      frontier.length + (mazeSize.rows.toNat * mazeSize.columns.toNat + 1) ≤
        fuel + tree.length →
      (dfsLoop mazeSize walls goal fuel frontier tree).isSome := by
  intro fuel
  induction fuel with
  | zero =>
    intro frontier tree hinv hle
    have hb := tree_length_le hinv
    have hf : frontier = [] := by
      rw [← List.length_eq_zero]
      omega
    subst hf
    rw [dfsLoop]
    simp [popLast]
  | succ fuel ih =>
    intro frontier tree hinv hle
    rw [dfsLoop]
    cases hpop : popLast frontier with
    | none => simp
    | some xr =>
      have hfr := popLast_eq_some hpop
      have hlen : frontier.length = xr.2.length + 1 := by rw [hfr]; simp
      simp only []
      by_cases hg : xr.1.isGoal
      · simp [hg]
      · simp only [hg, Bool.false_eq_true, if_false]
        apply ih
        · exact treeInv_append_probe_reverse _ _ _ _ hinv
        · rw [List.length_append, List.length_append, List.length_reverse]
          omega

/-- With the tree invariant and enough fuel, the depth-limited DFS loop
terminates. -/
theorem customOneLoop_isSome {mazeSize : MazeSize} {walls : List Wall} {goal : Coord} :
    ∀ (fuel : Nat) (frontier tree : List Node),
      TreeInv mazeSize tree →
      frontier.length + (mazeSize.rows.toNat * mazeSize.columns.toNat + 1) ≤
        fuel + tree.length →
      (customOneLoop mazeSize walls goal fuel frontier tree).isSome := by
  intro fuel
  induction fuel with
  | zero =>
    intro frontier tree hinv hle
    have hb := tree_length_le hinv
    have hf : frontier = [] := by
      rw [← List.length_eq_zero]
      omega
    subst hf
    rw [customOneLoop]
    simp [popLast]
  | succ fuel ih =>
    intro frontier tree hinv hle
    rw [customOneLoop]
    cases hpop : popLast frontier with
    | none => simp
    | some xr =>
      have hfr := popLast_eq_some hpop
      have hlen : frontier.length = xr.2.length + 1 := by rw [hfr]; simp
      simp only []
      by_cases hg : xr.1.isGoal
      · simp [hg]
      · simp only [hg, Bool.false_eq_true, if_false]
        split
        · apply ih
          · exact treeInv_append_probe_reverse _ _ _ _ hinv
          · rw [List.length_append, List.length_append, List.length_reverse]
            omega
        · apply ih
          · exact treeInv_append_probe_reverse _ _ _ _ hinv
          · rw [List.length_append]
            omega

/-- A frontier node's coordinate makes the corresponding `find?` succeed. -/
theorem find_by_coord_isSome {tree : List Node} {c : Coord}
    (h : ∃ p ∈ tree, p.coordinates = c) :
    (tree.find? fun node =>
      node.coordinates.x == c.x && node.coordinates.y == c.y).isSome := by
  rw [List.find?_isSome]
  obtain ⟨p, hp, hpc⟩ := h
  exact ⟨p, hp, by rw [hpc]; simp⟩

/-- With the forward tree invariant, both coordinate invariants and enough
fuel, the bidirectional loop terminates (the `find?` calls never fail). -/
theorem customTwoLoop_isSome {mazeSize : MazeSize} {walls : List Wall}
    {goal agentLocation : Coord} :
    ∀ (fuel : Nat) (frontier tree reverseFrontier reverseTree : List Node),
      TreeInv mazeSize tree →
      FrontierCoordInv frontier tree →
      FrontierCoordInv reverseFrontier reverseTree →
      frontier.length + (mazeSize.rows.toNat * mazeSize.columns.toNat + 1) ≤
        fuel + tree.length →
      (customTwoLoop mazeSize walls goal agentLocation fuel frontier tree
        reverseFrontier reverseTree).isSome := by
  intro fuel
  induction fuel with
  | zero =>
    intro frontier tree rfrontier rtree hinv hfc hrc hle
    have hb := tree_length_le hinv
    have hf : frontier = [] := by
      rw [← List.length_eq_zero]
      omega
    subst hf
    rw [customTwoLoop.eq_def]
    cases rfrontier <;> simp
  | succ fuel ih =>
    intro frontier tree rfrontier rtree hinv hfc hrc hle
    rw [customTwoLoop.eq_def]
    cases frontier with
    | nil => cases rfrontier <;> simp
    | cons sl rest =>
      cases rfrontier with
      | nil => simp
      | cons rsl rrest =>
        simp only []
        by_cases h1 : rtree.any fun p =>
            p.coordinates.x == sl.coordinates.x && p.coordinates.y == sl.coordinates.y
        · simp only [h1, if_true]
          have hforward : (tree.find? fun node =>
              node.coordinates.x == sl.coordinates.x &&
              node.coordinates.y == sl.coordinates.y).isSome :=
            find_by_coord_isSome (hfc sl (List.mem_cons_self _ _))
          have hreverse : (rtree.find? fun node =>
              node.coordinates.x == sl.coordinates.x &&
              node.coordinates.y == sl.coordinates.y).isSome := by
            rw [List.find?_isSome]
            rw [List.any_eq_true] at h1
            exact h1
          obtain ⟨fn, hfn⟩ := Option.isSome_iff_exists.mp hforward
          obtain ⟨rn, hrn⟩ := Option.isSome_iff_exists.mp hreverse
          rw [hfn, hrn]
          simp
        · simp only [h1, Bool.false_eq_true, if_false]
          by_cases h2 : tree.any fun p =>
              p.coordinates.x == rsl.coordinates.x && p.coordinates.y == rsl.coordinates.y
          · simp only [h2, if_true]
            have hforward : (tree.find? fun node =>
                node.coordinates.x == rsl.coordinates.x &&
                node.coordinates.y == rsl.coordinates.y).isSome := by
              rw [List.find?_isSome]
              rw [List.any_eq_true] at h2
              exact h2
            have hreverse : (rtree.find? fun node =>
                node.coordinates.x == rsl.coordinates.x &&
                node.coordinates.y == rsl.coordinates.y).isSome :=
              find_by_coord_isSome (hrc rsl (List.mem_cons_self _ _))
            obtain ⟨fn, hfn⟩ := Option.isSome_iff_exists.mp hforward
            obtain ⟨rn, hrn⟩ := Option.isSome_iff_exists.mp hreverse
            rw [hfn, hrn]
            simp
          · simp only [h2, Bool.false_eq_true, if_false]
            apply ih
            · exact treeInv_append_probe _ _ _ _ hinv
            · intro n hn
              rcases List.mem_append.mp (mem_stableSort.mp hn) with hn1 | hn2
              · obtain ⟨p, hp, hpc⟩ := hfc n (List.mem_cons_of_mem _ hn1)
                exact ⟨p, List.mem_append_left _ hp, hpc⟩
              · exact ⟨n, List.mem_append_right _ hn2, rfl⟩
            · intro n hn
              rcases List.mem_append.mp (mem_stableSort.mp hn) with hn1 | hn2
              · obtain ⟨p, hp, hpc⟩ := hrc n (List.mem_cons_of_mem _ hn1)
                exact ⟨p, List.mem_append_left _ hp, hpc⟩
              · exact ⟨n, List.mem_append_right _ hn2, rfl⟩
            · rw [length_stableSort, List.length_append, List.length_append]
              simp only [List.length_cons] at hle
              omega

/-- The singleton root tree satisfies the tree invariant. -/
theorem treeInv_root (mazeSize : MazeSize) (root : Node) : TreeInv mazeSize [root] := by
  constructor
  · simp
  · exact List.length_filter_le _ _

/-- `dfs` always yields a solution with the default fuel. -/
theorem dfs_isSome (problem : Problem) (goal : Coord) (root : Node) :
    (dfs problem goal root).isSome := by
  unfold dfs defaultFuel
  apply dfsLoop_isSome
  · exact treeInv_root _ _
  · simp
    omega

/-- `bfs` always yields a solution with the default fuel. -/
theorem bfs_isSome (problem : Problem) (goal : Coord) (root : Node) :
    (bfs problem goal root).isSome := by
  unfold bfs defaultFuel
  apply bfsLoop_isSome
  · exact treeInv_root _ _
  · simp
    omega

/-- `gbfs` always yields a solution with the default fuel. -/
theorem gbfs_isSome (problem : Problem) (goal : Coord) (root : Node) :
    (gbfs problem goal root).isSome := by
  unfold gbfs defaultFuel
  apply gbfsLoop_isSome
  · exact treeInv_root _ _
  · simp
    omega

/-- `aStar` always yields a solution with the default fuel. -/
theorem aStar_isSome (problem : Problem) (goal : Coord) (root : Node) :
    (aStar problem goal root).isSome := by
  unfold aStar defaultFuel
  apply aStarLoop_isSome
  · exact treeInv_root _ _
  · simp
    omega

/-- `customOne` always yields a solution with the default fuel. -/
theorem customOne_isSome (problem : Problem) (goal : Coord) (root : Node) :
    (customOne problem goal root).isSome := by
  unfold customOne defaultFuel
  apply customOneLoop_isSome
  · exact treeInv_root _ _
  · simp
    omega

/-- `customTwo` always yields a solution with the default fuel. -/
theorem customTwo_isSome (problem : Problem) (goal : Coord) (root : Node) :
    (customTwo problem goal root).isSome := by
  unfold customTwo defaultFuel
  apply customTwoLoop_isSome
  · exact treeInv_root _ _
  · intro n hn
    rw [List.mem_singleton] at hn
    exact ⟨n, by rw [hn]; exact List.mem_singleton_self _, rfl⟩
  · intro n hn
    rw [List.mem_singleton] at hn
    exact ⟨n, by rw [hn]; exact List.mem_singleton_self _, rfl⟩
  · simp
    omega

/-- `findSolution` yields a solution for each of the six method names. -/
theorem findSolution_isSome (problem : Problem) (startNode goal : Coord)
    (method : String) (h : method ∈ ["DFS", "BFS", "GBFS", "AS", "CUS1", "CUS2"]) :
    (findSolution problem startNode goal method).isSome := by
  have h' : method = "DFS" ∨ method = "BFS" ∨ method = "GBFS" ∨ method = "AS" ∨
      method = "CUS1" ∨ method = "CUS2" := by simpa using h
  rcases h' with rfl | rfl | rfl | rfl | rfl | rfl
  · exact dfs_isSome _ _ _
  · exact bfs_isSome _ _ _
  · exact gbfs_isSome _ _ _
  · exact aStar_isSome _ _ _
  · exact customOne_isSome _ _ _
  · exact customTwo_isSome _ _ _

/-- An unknown method name selects no algorithm. -/
theorem selectAlgorithm_eq_none {method : String}
    (h : method ∉ (["DFS", "BFS", "GBFS", "AS", "CUS1", "CUS2"] : List String)) :
    selectAlgorithm method = none := by
  simp only [List.mem_cons, List.not_mem_nil, or_false, not_or] at h
  obtain ⟨h1, h2, h3, h4, h5, h6⟩ := h
  unfold selectAlgorithm
  simp [h1, h2, h3, h4, h5, h6]

/-- C10: `selectAlgorithm` yields an algorithm exactly for the six known
strategy names, and `findSolution` produces a Solution exactly for those
names (for any other name it produces nothing). -/
theorem findSolution_some_iff (problem : Problem) (startNode goal : Coord)
    (method : String) :
    ((selectAlgorithm method).isSome = true ↔
      method ∈ ["DFS", "BFS", "GBFS", "AS", "CUS1", "CUS2"]) ∧
    ((∃ sol, findSolution problem startNode goal method = some sol) ↔
      method ∈ ["DFS", "BFS", "GBFS", "AS", "CUS1", "CUS2"]) := by
  constructor
  · constructor
    · intro hs
      by_contra hmem
      rw [selectAlgorithm_eq_none hmem] at hs
      simp at hs
    · intro h
      have h' : method = "DFS" ∨ method = "BFS" ∨ method = "GBFS" ∨ method = "AS" ∨
          method = "CUS1" ∨ method = "CUS2" := by simpa using h
      rcases h' with rfl | rfl | rfl | rfl | rfl | rfl <;> rfl
  · constructor
    · rintro ⟨sol, hsol⟩
      by_contra hmem
      unfold findSolution at hsol
      rw [selectAlgorithm_eq_none hmem] at hsol
      simp at hsol
    · intro h
      rw [← Option.isSome_iff_exists]
      exact findSolution_isSome _ _ _ _ h

/-- The depth stored at the end of an extended path is the extending node's. -/
theorem lastDepth_concat (l : List Node) (a : Node) : lastDepth (l ++ [a]) = a.depth := by
  simp [lastDepth, List.getLast?_concat]

/-- Under the depth invariant, the depth-limited DFS loop never returns a path
longer than the depth limit. -/
theorem customOneLoop_path_le {mazeSize : MazeSize} {walls : List Wall} {goal : Coord} :
    ∀ (fuel : Nat) (frontier tree : List Node) (sol : Solution),
      DepthInv frontier →
      customOneLoop mazeSize walls goal fuel frontier tree = some sol →
      (sol.path.length : Int) ≤ depthLimit := by
  intro fuel
  induction fuel with
  | zero =>
    intro frontier tree sol hinv h
    rw [customOneLoop] at h
    cases hpop : popLast frontier with
    | none => rw [hpop] at h; simp at h; rw [← h]; simp [depthLimit]
    | some xr => rw [hpop] at h; simp at h
  | succ fuel ih =>
    intro frontier tree sol hinv h
    rw [customOneLoop] at h
    cases hpop : popLast frontier with
    | none => rw [hpop] at h; simp at h; rw [← h]; simp [depthLimit]
    | some xr =>
      have hfr := popLast_eq_some hpop
      have hsl : xr.1 ∈ frontier := by
        rw [hfr]; exact List.mem_append_right _ (List.mem_singleton_self _)
      obtain ⟨hdlen, hd0, hdle⟩ := hinv xr.1 hsl
      rw [hpop] at h
      simp only [] at h
      by_cases hg : xr.1.isGoal
      · simp [hg] at h
        rw [← h]
        simp only [List.length_tail, List.length_append, List.length_map,
          List.length_cons, List.length_nil]
        simp only [depthLimit] at hdle ⊢
        omega
      · simp only [hg, Bool.false_eq_true, if_false] at h
        split at h
        · rename_i hfirst
          refine ih _ _ _ ?_ h
          intro n hn
          rcases List.mem_append.mp hn with hn1 | hn2
          · exact hinv n (by rw [hfr]; exact List.mem_append_left _ hn1)
          · have hst := mem_probe_structure (List.mem_reverse.mp hn2)
            have hdep : n.depth = xr.1.depth + 1 := by
              rw [hst.2.1, lastDepth_concat]
            have hlen : (n.previousCoordinates.length : Int) = n.depth := by
              rw [hst.1, hdep, List.length_append]
              simp only [List.length_singleton]
              push_cast
              omega
            refine ⟨hlen, by omega, ?_⟩
            cases hc : (probeCoordinates xr.1.coordinates
                (xr.1.previousCoordinates ++ [xr.1]) mazeSize goal walls
                tree).reverse with
            | nil => rw [hc] at hn2; simp at hn2
            | cons c0 cs =>
              rw [hc] at hfirst
              have hfirst2 : c0.depth ≠ depthLimit + 1 := hfirst
              have hc0 := mem_probe_structure
                (List.mem_reverse.mp (hc ▸ List.mem_cons_self c0 cs))
              have hcd : c0.depth = xr.1.depth + 1 := by
                rw [hc0.2.1, lastDepth_concat]
              rw [hcd] at hfirst2
              rw [hdep]
              simp only [depthLimit] at hfirst2 hdle ⊢
              omega
        · refine ih _ _ _ ?_ h
          intro n hn
          exact hinv n (by rw [hfr]; exact List.mem_append_left _ hn)

/-- C6: the depth-limited DFS strategy never returns a found solution whose
path exceeds its configured depth limit of 10, and candidates one past the
limit are still recorded in the search tree but not pushed onto the frontier
(the loop continues with an unchanged frontier). -/
theorem customOne_depth_limited :
    (∀ (problem : Problem) (goal startNode : Coord) (sol : Solution),
      customOne problem goal (getInitialNode startNode goal) = some sol →
      sol.status = .found →
      (sol.path.length : Int) ≤ depthLimit) ∧
    (∀ (mazeSize : MazeSize) (walls : List Wall) (goal : Coord) (fuel : Nat)
      (searchLocation : Node) (frontier' tree : List Node) (c : Node) (cs : List Node),
      searchLocation.isGoal = false →
      (probeCoordinates searchLocation.coordinates
        (searchLocation.previousCoordinates ++ [searchLocation]) mazeSize goal walls
        tree).reverse = c :: cs →
      c.depth = depthLimit + 1 →
      customOneLoop mazeSize walls goal (fuel + 1) (frontier' ++ [searchLocation]) tree =
        customOneLoop mazeSize walls goal fuel frontier' (tree ++ (c :: cs))) := by
  constructor
  · intro problem goal startNode sol h _
    refine customOneLoop_path_le _ _ _ _ ?_ h
    intro n hn
    rw [List.mem_singleton] at hn
    subst hn
    refine ⟨?_, ?_, ?_⟩ <;>
      simp [getInitialNode, Node.previousCoordinates, Node.depth, depthLimit]
  · intro mazeSize walls goal fuel searchLocation frontier' tree c cs hg hcands hdepth
    rw [customOneLoop, popLast_append]
    simp only [hg, Bool.false_eq_true, if_false]
    rw [hcands]
    simp [hdepth]

/-- Witness for C6: on the 1x2 maze the found path has length 1 ≤ 10, and a
candidate of depth 11 is recorded in the tree but not pushed. -/
theorem customOne_depth_limited_witness :
    (((Solution.mk .found
        [PathElem.node (Node.mk "right; " ⟨1,0⟩ true
          [getInitialNode ⟨0,0⟩ ⟨1,0⟩] ⟨0,1,1⟩ 1)]
        [getInitialNode ⟨0,0⟩ ⟨1,0⟩, Node.mk "right; " ⟨1,0⟩ true
          [getInitialNode ⟨0,0⟩ ⟨1,0⟩] ⟨0,1,1⟩ 1]).path.length : Int) ≤ depthLimit) ∧
    customOneLoop ⟨1,2⟩ [] ⟨1,0⟩ 6 [Node.mk "x; " ⟨0,0⟩ false [] ⟨0,0,0⟩ 10] [] =
      customOneLoop ⟨1,2⟩ [] ⟨1,0⟩ 5 []
        ([] ++ [Node.mk "right; " ⟨1,0⟩ true
          [Node.mk "x; " ⟨0,0⟩ false [] ⟨0,0,0⟩ 10] ⟨0,0,1⟩ 11]) :=
  ⟨customOne_depth_limited.1 problemTwoCells ⟨1,0⟩ ⟨0,0⟩ _ rfl rfl,
   customOne_depth_limited.2 ⟨1,2⟩ [] ⟨1,0⟩ 5
     (Node.mk "x; " ⟨0,0⟩ false [] ⟨0,0,0⟩ 10) [] []
     (Node.mk "right; " ⟨1,0⟩ true
       [Node.mk "x; " ⟨0,0⟩ false [] ⟨0,0,0⟩ 10] ⟨0,0,1⟩ 11) []
     rfl rfl rfl⟩

/-- With coinciding start and goal, the bidirectional loop meets immediately:
the two roots intersect on the very first iteration, before any expansion. -/
theorem customTwoLoop_immediate_meet (mazeSize : MazeSize) (walls : List Wall)
    (a : Coord) (fuel : Nat) :
    customTwoLoop mazeSize walls a a (fuel + 1)
      [getInitialNode a a] [getInitialNode a a]
      [getInitialNode a a] [getInitialNode a a] =
      some ⟨.found, [], [getInitialNode a a, getInitialNode a a]⟩ := by
  rw [customTwoLoop.eq_def]
  simp only [List.any_cons, List.any_nil, getInitialNode, Node.coordinates,
    beq_self_eq_true, Bool.and_self, Bool.or_false, if_true]
  simp [List.find?_cons, Node.previousCoordinates, stitchDirections, List.zip_nil_right]

/-- C9: whenever the start coordinate equals the goal, the bidirectional
strategy returns `found` with an empty path and a search tree holding exactly
the forward root and the backward root — the intersection test fires on the
first iteration before any expansion. -/
theorem customTwo_start_eq_goal (problem : Problem) (goal : Coord)
    (h : problem.agentLocation = goal) :
    findSolution problem problem.agentLocation goal "CUS2" =
      some ⟨.found, [],
        [getInitialNode problem.agentLocation goal,
         getInitialNode goal problem.agentLocation]⟩ := by
  subst h
  exact customTwoLoop_immediate_meet problem.mazeSize problem.walls
    problem.agentLocation
    (problem.mazeSize.rows.toNat * problem.mazeSize.columns.toNat + 1)

/-- Witness for C9 on the 1x1 maze with start = goal = (0,0). -/
theorem customTwo_start_eq_goal_witness :
    findSolution problemStartEqGoal problemStartEqGoal.agentLocation ⟨0,0⟩ "CUS2" =
      some ⟨.found, [],
        [getInitialNode problemStartEqGoal.agentLocation ⟨0,0⟩,
         getInitialNode ⟨0,0⟩ problemStartEqGoal.agentLocation]⟩ :=
  customTwo_start_eq_goal problemStartEqGoal ⟨0,0⟩ rfl

/-- C8 counterexample: the bidirectional strategy's returned path consists of
direction-only records; on the 1x2 maze its single path entry occurs nowhere
in the returned search tree, refuting the membership half of the claim. -/
theorem customTwo_path_not_in_tree :
    ¬ (∀ sol, findSolution problemTwoCells ⟨0,0⟩ ⟨1,0⟩ "CUS2" = some sol →
        ∀ e ∈ sol.path, ∃ n ∈ sol.searchTree, e = PathElem.node n) := by
  intro h
  have h2 := h _ rfl (PathElem.dir "right; ") (List.mem_singleton_self _)
  obtain ⟨n, -, hn⟩ := h2
  exact PathElem.noConfusion hn

/-- C8 (amended): for every strategy the search tree only grows over the run
(any intermediate tree is a prefix of the returned tree; for the
bidirectional strategy the returned tree splits into a forward part and a
backward part, each extending its side's intermediate tree), and for the five
single-tree strategies every entry of the returned path occurs in the
returned search tree; the bidirectional strategy's path entries are
direction-only records that occur in neither tree. -/
theorem searchTree_monotone_and_path_membership :
    (∀ (mazeSize : MazeSize) (walls : List Wall) (goal : Coord) (fuel : Nat)
      (frontier tree : List Node) (sol : Solution),
      dfsLoop mazeSize walls goal fuel frontier tree = some sol →
      tree <+: sol.searchTree) ∧
    (∀ (mazeSize : MazeSize) (walls : List Wall) (goal : Coord) (fuel : Nat)
      (frontier tree : List Node) (sol : Solution),
      bfsLoop mazeSize walls goal fuel frontier tree = some sol →
      tree <+: sol.searchTree) ∧
    (∀ (mazeSize : MazeSize) (walls : List Wall) (goal : Coord) (fuel : Nat)
      (frontier tree : List Node) (sol : Solution),
      gbfsLoop mazeSize walls goal fuel frontier tree = some sol →
      tree <+: sol.searchTree) ∧
    (∀ (mazeSize : MazeSize) (walls : List Wall) (goal : Coord) (fuel : Nat)
      (frontier tree : List Node) (sol : Solution),
      aStarLoop mazeSize walls goal fuel frontier tree = some sol →
      tree <+: sol.searchTree) ∧
    (∀ (mazeSize : MazeSize) (walls : List Wall) (goal : Coord) (fuel : Nat)
      (frontier tree : List Node) (sol : Solution),
      customOneLoop mazeSize walls goal fuel frontier tree = some sol →
      tree <+: sol.searchTree) ∧
    (∀ (mazeSize : MazeSize) (walls : List Wall) (goal agentLocation : Coord)
      (fuel : Nat) (frontier tree reverseFrontier reverseTree : List Node)
      (sol : Solution),
      customTwoLoop mazeSize walls goal agentLocation fuel frontier tree
        reverseFrontier reverseTree = some sol →
      ∃ t r, sol.searchTree = t ++ r ∧ tree <+: t ∧ reverseTree <+: r) ∧
    (∀ (mazeSize : MazeSize) (walls : List Wall) (goal : Coord) (fuel : Nat)
      (frontier tree : List Node) (sol : Solution),
      FrontierMemInv frontier tree →
      dfsLoop mazeSize walls goal fuel frontier tree = some sol →
      ∀ e ∈ sol.path, ∃ n ∈ sol.searchTree, e = PathElem.node n) ∧
    (∀ (mazeSize : MazeSize) (walls : List Wall) (goal : Coord) (fuel : Nat)
      (frontier tree : List Node) (sol : Solution),
      FrontierMemInv frontier tree →
      bfsLoop mazeSize walls goal fuel frontier tree = some sol →
      ∀ e ∈ sol.path, ∃ n ∈ sol.searchTree, e = PathElem.node n) ∧
    (∀ (mazeSize : MazeSize) (walls : List Wall) (goal : Coord) (fuel : Nat)
      (frontier tree : List Node) (sol : Solution),
      FrontierMemInv frontier tree →
      gbfsLoop mazeSize walls goal fuel frontier tree = some sol →
      ∀ e ∈ sol.path, ∃ n ∈ sol.searchTree, e = PathElem.node n) ∧
    (∀ (mazeSize : MazeSize) (walls : List Wall) (goal : Coord) (fuel : Nat)
      (frontier tree : List Node) (sol : Solution),
      FrontierMemInv frontier tree →
      aStarLoop mazeSize walls goal fuel frontier tree = some sol →
      ∀ e ∈ sol.path, ∃ n ∈ sol.searchTree, e = PathElem.node n) ∧
    (∀ (mazeSize : MazeSize) (walls : List Wall) (goal : Coord) (fuel : Nat)
      (frontier tree : List Node) (sol : Solution),
      FrontierMemInv frontier tree →
      customOneLoop mazeSize walls goal fuel frontier tree = some sol →
      ∀ e ∈ sol.path, ∃ n ∈ sol.searchTree, e = PathElem.node n) :=
  ⟨fun _ _ _ _ _ _ _ h => dfsLoop_tree_prefix _ _ _ _ h,
   fun _ _ _ _ _ _ _ h => bfsLoop_tree_prefix _ _ _ _ h,
   fun _ _ _ _ _ _ _ h => gbfsLoop_tree_prefix _ _ _ _ h,
   fun _ _ _ _ _ _ _ h => aStarLoop_tree_prefix _ _ _ _ h,
   fun _ _ _ _ _ _ _ h => customOneLoop_tree_prefix _ _ _ _ h,
   fun _ _ _ _ _ _ _ _ _ _ h => customTwoLoop_tree_decomp _ _ _ _ _ _ h,
   fun _ _ _ _ _ _ _ hinv h => dfsLoop_path_mem _ _ _ _ hinv h,
   fun _ _ _ _ _ _ _ hinv h => bfsLoop_path_mem _ _ _ _ hinv h,
   fun _ _ _ _ _ _ _ hinv h => gbfsLoop_path_mem _ _ _ _ hinv h,
   fun _ _ _ _ _ _ _ hinv h => aStarLoop_path_mem _ _ _ _ hinv h,
   fun _ _ _ _ _ _ _ hinv h => customOneLoop_path_mem _ _ _ _ hinv h⟩

/-- Witness for C8: the concrete 1x2 runs of all six loops. -/
theorem searchTree_monotone_and_path_membership_witness :
    ([rootTwoCells] <+: [rootTwoCells, goalNodeTwoCells]) ∧
    ([rootTwoCells] <+: [rootTwoCells, goalNodeTwoCells]) ∧
    ([rootTwoCells] <+: [rootTwoCells, goalNodeTwoCells]) ∧
    ([rootTwoCells] <+: [rootTwoCells, goalNodeTwoCells]) ∧
    ([rootTwoCells] <+: [rootTwoCells, goalNodeTwoCells]) ∧
    (∃ t r, ([rootTwoCells, goalNodeTwoCells, reverseRootTwoCells,
        reverseGoalNodeTwoCells] : List Node) = t ++ r ∧
      [rootTwoCells] <+: t ∧ [reverseRootTwoCells] <+: r) ∧
    (∀ e ∈ [PathElem.node goalNodeTwoCells],
      ∃ n ∈ [rootTwoCells, goalNodeTwoCells], e = PathElem.node n) ∧
    (∀ e ∈ [PathElem.node goalNodeTwoCells],
      ∃ n ∈ [rootTwoCells, goalNodeTwoCells], e = PathElem.node n) ∧
    (∀ e ∈ [PathElem.node goalNodeTwoCells],
      ∃ n ∈ [rootTwoCells, goalNodeTwoCells], e = PathElem.node n) ∧
    (∀ e ∈ [PathElem.node goalNodeTwoCells],
      ∃ n ∈ [rootTwoCells, goalNodeTwoCells], e = PathElem.node n) ∧
    (∀ e ∈ [PathElem.node goalNodeTwoCells],
      ∃ n ∈ [rootTwoCells, goalNodeTwoCells], e = PathElem.node n) := by
  have hinv : FrontierMemInv [rootTwoCells] [rootTwoCells] := by
    intro n hn
    rw [List.mem_singleton] at hn
    subst hn
    refine ⟨List.mem_singleton_self _, ?_⟩
    intro m hm
    simp [rootTwoCells, getInitialNode, Node.previousCoordinates] at hm
  refine ⟨?_, ?_, ?_, ?_, ?_, ?_, ?_, ?_, ?_, ?_, ?_⟩
  · exact searchTree_monotone_and_path_membership.1 ⟨1,2⟩ [] ⟨1,0⟩ 4
      [rootTwoCells] [rootTwoCells]
      (Solution.mk .found [PathElem.node goalNodeTwoCells]
        [rootTwoCells, goalNodeTwoCells]) rfl
  · exact searchTree_monotone_and_path_membership.2.1 ⟨1,2⟩ [] ⟨1,0⟩ 4
      [rootTwoCells] [rootTwoCells]
      (Solution.mk .found [PathElem.node goalNodeTwoCells]
        [rootTwoCells, goalNodeTwoCells]) rfl
  · exact searchTree_monotone_and_path_membership.2.2.1 ⟨1,2⟩ [] ⟨1,0⟩ 4
      [rootTwoCells] [rootTwoCells]
      (Solution.mk .found [PathElem.node goalNodeTwoCells]
        [rootTwoCells, goalNodeTwoCells]) rfl
  · exact searchTree_monotone_and_path_membership.2.2.2.1 ⟨1,2⟩ [] ⟨1,0⟩ 4
      [rootTwoCells] [rootTwoCells]
      (Solution.mk .found [PathElem.node goalNodeTwoCells]
        [rootTwoCells, goalNodeTwoCells]) rfl
  · exact searchTree_monotone_and_path_membership.2.2.2.2.1 ⟨1,2⟩ [] ⟨1,0⟩ 4
      [rootTwoCells] [rootTwoCells]
      (Solution.mk .found [PathElem.node goalNodeTwoCells]
        [rootTwoCells, goalNodeTwoCells]) rfl
  · exact searchTree_monotone_and_path_membership.2.2.2.2.2.1 ⟨1,2⟩ [] ⟨1,0⟩ ⟨0,0⟩ 4
      [rootTwoCells] [rootTwoCells] [reverseRootTwoCells] [reverseRootTwoCells]
      (Solution.mk .found [PathElem.dir "right; "]
        [rootTwoCells, goalNodeTwoCells, reverseRootTwoCells,
          reverseGoalNodeTwoCells]) rfl
  · exact searchTree_monotone_and_path_membership.2.2.2.2.2.2.1 ⟨1,2⟩ [] ⟨1,0⟩ 4
      [rootTwoCells] [rootTwoCells]
      (Solution.mk .found [PathElem.node goalNodeTwoCells]
        [rootTwoCells, goalNodeTwoCells]) hinv rfl
  · exact searchTree_monotone_and_path_membership.2.2.2.2.2.2.2.1 ⟨1,2⟩ [] ⟨1,0⟩ 4
      [rootTwoCells] [rootTwoCells]
      (Solution.mk .found [PathElem.node goalNodeTwoCells]
        [rootTwoCells, goalNodeTwoCells]) hinv rfl
  · exact searchTree_monotone_and_path_membership.2.2.2.2.2.2.2.2.1 ⟨1,2⟩ [] ⟨1,0⟩ 4
      [rootTwoCells] [rootTwoCells]
      (Solution.mk .found [PathElem.node goalNodeTwoCells]
        [rootTwoCells, goalNodeTwoCells]) hinv rfl
  · exact searchTree_monotone_and_path_membership.2.2.2.2.2.2.2.2.2.1 ⟨1,2⟩ [] ⟨1,0⟩ 4
      [rootTwoCells] [rootTwoCells]
      (Solution.mk .found [PathElem.node goalNodeTwoCells]
        [rootTwoCells, goalNodeTwoCells]) hinv rfl
  · exact searchTree_monotone_and_path_membership.2.2.2.2.2.2.2.2.2.2 ⟨1,2⟩ [] ⟨1,0⟩ 4
      [rootTwoCells] [rootTwoCells]
      (Solution.mk .found [PathElem.node goalNodeTwoCells]
        [rootTwoCells, goalNodeTwoCells]) hinv rfl

/-- For a known method, `solveGoals` always succeeds and pairs each goal with
its sub-solution, preserving the goal list's indices and coordinates. -/
theorem solveGoals_eq_some (problem : Problem) (method : String)
    (h : method ∈ ["DFS", "BFS", "GBFS", "AS", "CUS1", "CUS2"]) :
    ∀ (goalList : List (Nat × Coord)) (startNode : Coord),
      ∃ sols, solveGoals problem method startNode goalList = some sols ∧
        sols.map (fun x => (x.1, x.2.1)) = goalList := by
  intro goalList
  induction goalList with
  | nil => intro startNode; exact ⟨[], rfl, rfl⟩
  | cons ig rest ih =>
    intro startNode
    obtain ⟨sols, hsols, hmap⟩ := ih startNode
    obtain ⟨s, hs⟩ := Option.isSome_iff_exists.mp
      (findSolution_isSome problem startNode ig.2 method h)
    refine ⟨(ig.1, ig.2, s) :: sols, ?_, ?_⟩
    · rw [solveGoals.eq_def]
      simp only []
      rw [hs, hsols]
    · simp [hmap]

/-- `popLast` returns an element of the list. -/
theorem popLast_mem {α : Type _} {l r : List α} {x : α}
    (h : popLast l = some (x, r)) : x ∈ l := by
  rw [popLast_eq_some h]
  exact List.mem_append_right _ (List.mem_singleton_self _)

/-- For a known method and enough fuel, the orchestrator's loop succeeds, and
returns a non-empty leg list exactly when the goal list is non-empty. -/
theorem legsLoop_eq_some (problem : Problem) (method : String)
    (h : method ∈ ["DFS", "BFS", "GBFS", "AS", "CUS1", "CUS2"]) :
    ∀ (fuel : Nat) (goalList : List (Nat × Coord)) (startNode : Coord),
      goalList.length ≤ fuel →
      ∃ legs, legsLoop problem method fuel goalList startNode = some legs ∧
        (legs = [] ↔ goalList = []) := by
  intro fuel
  induction fuel with
  | zero =>
    intro goalList startNode hle
    have : goalList = [] := by
      rw [← List.length_eq_zero]
      omega
    subst this
    exact ⟨[], rfl, by simp⟩
  | succ fuel ih =>
    intro goalList startNode hle
    cases goalList with
    | nil => exact ⟨[], rfl, by simp⟩
    | cons g gs =>
      obtain ⟨sols, hsols, hmap⟩ := solveGoals_eq_some problem method h (g :: gs) startNode
      have hlen : sols.length = (g :: gs).length := by
        rw [← hmap, List.length_map]
      have hsorted : (stableSort (fun a b =>
          decide (b.2.2.path.length ≤ a.2.2.path.length)) sols) ≠ [] := by
        intro hnil
        have h1 := length_stableSort (fun a b =>
          decide (b.2.2.path.length ≤ a.2.2.path.length)) sols
        rw [hnil] at h1
        simp only [List.length_nil] at h1
        simp only [List.length_cons] at hlen
        omega
      obtain ⟨chosen, rest2, hpop⟩ : ∃ c r, popLast (stableSort (fun a b =>
          decide (b.2.2.path.length ≤ a.2.2.path.length)) sols) = some (c, r) := by
        cases hp : popLast (stableSort (fun a b =>
            decide (b.2.2.path.length ≤ a.2.2.path.length)) sols) with
        | none => exact absurd (popLast_eq_none_iff.mp hp) hsorted
        | some xr =>
          obtain ⟨c, r⟩ := xr
          exact ⟨c, r, rfl⟩
      have hchosen : (chosen.1, chosen.2.1) ∈ (g :: gs) := by
        rw [← hmap]
        exact List.mem_map_of_mem _ (mem_stableSort.mp (popLast_mem hpop))
      have hshrink : ((g :: gs).filter fun ig => ig.1 != chosen.1).length <
          (g :: gs).length := by
        rw [List.length_filter_lt_length_iff_exists]
        exact ⟨(chosen.1, chosen.2.1), hchosen, by simp⟩
      obtain ⟨legs, hlegs, -⟩ := ih ((g :: gs).filter fun ig => ig.1 != chosen.1)
        chosen.2.1 (by
          simp only [List.length_cons] at hle hshrink
          omega)
      refine ⟨(chosen.2.1, chosen.2.2) :: legs, ?_, by simp⟩
      rw [legsLoop.eq_def]
      simp only []
      rw [hsols]
      simp only []
      rw [hpop]
      simp only []
      rw [hlegs]

/-- Unfolding of the final `reduce` of `searchAllGoals`: the combined path and
tree are the concatenations of the legs' paths and trees, and the status is
`found` as soon as one leg was folded in, regardless of the legs' statuses. -/
theorem combineSolutions_spec :
    ∀ (legs : List (Coord × Solution)) (init : Solution),
      (legs.foldl (fun combinedSolution leg =>
        { status := .found
          path := combinedSolution.path ++ leg.2.path
          searchTree := combinedSolution.searchTree ++ leg.2.searchTree }) init).path =
        init.path ++ legs.flatMap (fun l => l.2.path) ∧
      (legs.foldl (fun combinedSolution leg =>
        { status := .found
          path := combinedSolution.path ++ leg.2.path
          searchTree := combinedSolution.searchTree ++ leg.2.searchTree }) init).searchTree =
        init.searchTree ++ legs.flatMap (fun l => l.2.searchTree) ∧
      (legs.foldl (fun combinedSolution leg =>
        { status := .found
          path := combinedSolution.path ++ leg.2.path
          searchTree := combinedSolution.searchTree ++ leg.2.searchTree }) init).status =
        (if legs.isEmpty then init.status else .found) := by
  intro legs
  induction legs with
  | nil => intro init; simp
  | cons l ls ih =>
    intro init
    obtain ⟨hp, ht, hs⟩ := ih
      { status := .found
        path := init.path ++ l.2.path
        searchTree := init.searchTree ++ l.2.searchTree }
    refine ⟨?_, ?_, ?_⟩
    · rw [List.foldl_cons, hp]
      simp
    · rw [List.foldl_cons, ht]
      simp
    · rw [List.foldl_cons, hs]
      cases ls <;> simp

/-- C5 (amended): for every problem and known strategy the orchestrator
succeeds; its path is the concatenation of the legs' paths in visiting order
and its search tree is the concatenation of the legs' trees without
deduplication, but its status is `found` iff the goal list is non-empty —
the final `reduce` marks `found` once per leg unconditionally, regardless of
the legs' own statuses. -/
theorem searchAllGoals_characterization (problem : Problem) (method : String)
    (h : method ∈ ["DFS", "BFS", "GBFS", "AS", "CUS1", "CUS2"]) :
    ∃ legs,
      legsLoop problem method problem.goals.length problem.goals.enum
        problem.agentLocation = some legs ∧
      searchAllGoals problem method = some (combineSolutions legs) ∧
      (combineSolutions legs).path = legs.flatMap (fun l => l.2.path) ∧
      (combineSolutions legs).searchTree =
        legs.flatMap (fun l => l.2.searchTree) ∧
      ((combineSolutions legs).status = .found ↔ problem.goals ≠ []) := by
  obtain ⟨legs, hlegs, hempty⟩ := legsLoop_eq_some problem method h
    problem.goals.length problem.goals.enum problem.agentLocation
    (by rw [List.enum_length])
  obtain ⟨hp, ht, hs⟩ := combineSolutions_spec legs ⟨.fail, [], []⟩
  refine ⟨legs, hlegs, ?_, ?_, ?_, ?_⟩
  · unfold searchAllGoals
    rw [hlegs]
    rfl
  · rw [combineSolutions, hp]
    simp
  · rw [combineSolutions, ht]
    simp
  · rw [combineSolutions, hs]
    rw [List.enum_eq_nil] at hempty
    constructor
    · intro hfound hgoals
      rw [hempty.mpr hgoals] at hfound
      simp at hfound
    · intro hgoals
      have : legs ≠ [] := fun hl => hgoals (hempty.mp hl)
      simp [List.isEmpty_iff, this]

/-- Witness for C5's amended claim at the two-goal problem with BFS. -/
theorem searchAllGoals_characterization_witness :
    ∃ legs,
      legsLoop problemMultiGoal "BFS" problemMultiGoal.goals.length
        problemMultiGoal.goals.enum problemMultiGoal.agentLocation = some legs ∧
      searchAllGoals problemMultiGoal "BFS" = some (combineSolutions legs) ∧
      (combineSolutions legs).path = legs.flatMap (fun l => l.2.path) ∧
      (combineSolutions legs).searchTree =
        legs.flatMap (fun l => l.2.searchTree) ∧
      ((combineSolutions legs).status = .found ↔ problemMultiGoal.goals ≠ []) :=
  searchAllGoals_characterization problemMultiGoal "BFS" (by simp)
